import Mathlib

/-!
Verification of the sky-map data converter (`sky.py`).

The development shallowly embeds the program's three extraction routines
(`group_stars_by_magnitude`, `build_boundary_data`, `load_decision_data`)
and its compact serializer (`jsonify`).  Python text values are `String`,
Python integers are `Int`, and Python floats are modelled exactly as
decimal numbers `Dec` (an integer mantissa over a power-of-ten
denominator), which is faithful for every value the program manipulates:
all of its floats originate from decimal text and stay decimal under the
arithmetic the program performs (negation, multiplication by 15.0, and
`copysign` on small integers).  File input is modelled by passing the
list of text lines explicitly; failure of a Python run (`ValueError`,
`AssertionError`) is modelled by `Option`.
-/

set_option linter.unusedVariables false

/- ===================== Python text primitives ===================== -/

/-- The whitespace characters recognised by Python's `str.split()`. -/
def isPySpace (c : Char) : Bool :=
  c = ' ' || c = '\t' || c = '\n' || c = '\r'

/-- Worker for `str.split(sep, maxsplit)`: `n` counts the splits still
allowed, `acc` is the field being accumulated.  Once the budget is
exhausted the remainder of the line (separators included) belongs to the
final field, exactly as in Python. -/
def pySplitMaxAux (sep : Char) : Nat → List Char → List Char → List (List Char)
  | _, acc, [] => [acc]
  | 0, acc, c :: cs => [acc ++ c :: cs]
  | n + 1, acc, c :: cs =>
    if c = sep then acc :: pySplitMaxAux sep n [] cs
    else pySplitMaxAux sep (n + 1) (acc ++ [c]) cs

/-- Python `s.split(sep, maxsplit)` (single-character separator, empty
fields kept). -/
def pySplitMax (sep : Char) (maxsplit : Nat) (s : String) : List String :=
  (pySplitMaxAux sep maxsplit [] s.data).map String.mk

/-- Python `s.split(sep)` with no split limit: a budget of `s.length`
splits can never be exhausted. -/
def pySplitAll (sep : Char) (s : String) : List String :=
  pySplitMax sep s.data.length s

/-- Worker for whitespace `str.split()`: runs of whitespace separate
fields and empty fields are dropped. -/
def pySplitWSAux : List Char → List Char → List (List Char)
  | acc, [] => if acc.isEmpty then [] else [acc]
  | acc, c :: cs =>
    if isPySpace c then
      if acc.isEmpty then pySplitWSAux [] cs else acc :: pySplitWSAux [] cs
    else pySplitWSAux (acc ++ [c]) cs

/-- Python `s.split()` (no arguments): split on whitespace runs. -/
def pySplitWS (s : String) : List String :=
  (pySplitWSAux [] s.data).map String.mk

/-- Numeric value of a decimal digit character. -/
def digitVal (c : Char) : Nat := c.toNat - 48

/-- Value of a big-endian list of decimal digit characters. -/
def digitsVal (l : List Char) : Nat := l.foldl (fun a c => 10 * a + digitVal c) 0

/-- Strip leading and trailing Python whitespace from a character list,
as `int()` and `float()` do before parsing. -/
def stripWS (l : List Char) : List Char :=
  ((l.dropWhile isPySpace).reverse.dropWhile isPySpace).reverse

/-- Python `int(s)`: optional sign followed by one or more decimal
digits; anything else raises `ValueError`, modelled as `none`.  Note
that `int("-0")` is the plain integer `0`: the textual sign is lost. -/
def parsePyInt (s : String) : Option Int :=
  match stripWS s.data with
  | [] => none
  | c :: cs =>
    let signed : Bool × List Char :=
      if c = '-' then (true, cs) else if c = '+' then (false, cs) else (false, c :: cs)
    let ds := signed.2
    if ds.isEmpty then none
    else if ds.all Char.isDigit then
      some (if signed.1 then -(digitsVal ds : Int) else (digitsVal ds : Int))
    else none

/- ===================== Decimal model of Python floats ===================== -/

/-- A Python float value, represented exactly as the decimal number
`mant / 10 ^ exp`.  The canonical form (produced by `dnorm`) has no
factor of ten shared between mantissa and denominator, so equality of
canonical `Dec`s is equality of the represented values. -/
structure Dec where
  mant : Int
  exp : Nat
deriving DecidableEq

/-- Normalise `m / 10 ^ e` by cancelling factors of ten. -/
def dnorm : Int → Nat → Dec
  | m, 0 => ⟨m, 0⟩
  | m, e + 1 => if m % 10 = 0 then dnorm (m / 10) e else ⟨m, e + 1⟩

/-- The rational value represented by a `Dec`. -/
def dval (d : Dec) : ℚ := (d.mant : ℚ) / (10 : ℚ) ^ d.exp

/-- Float negation. -/
def dneg (d : Dec) : Dec := ⟨-d.mant, d.exp⟩

/-- Float multiplication (exact on decimal values, as every product the
program forms is exactly representable). -/
def dmul (a b : Dec) : Dec := dnorm (a.mant * b.mant) (a.exp + b.exp)

/-- Float comparison `a < b`, by cross-multiplication. -/
def dltB (a b : Dec) : Bool :=
  decide (a.mant * (10 : Int) ^ b.exp < b.mant * (10 : Int) ^ a.exp)

/-- Python `int(x)` on a float: truncation toward zero. -/
def pyTrunc (d : Dec) : Int :=
  if d.mant < 0 then -((d.mant.natAbs / 10 ^ d.exp : Nat) : Int)
  else ((d.mant.natAbs / 10 ^ d.exp : Nat) : Int)

/-- Exponent tail of a Python float literal: after the mantissa
`m / 10 ^ k` has been read, accept the end of input or `e`/`E` followed
by a signed integer exponent consuming the rest. -/
def pyFloatExpTail (m : Int) (k : Nat) : List Char → Option Dec
  | [] => some (dnorm m k)
  | c :: cs =>
    if c = 'e' ∨ c = 'E' then
      match cs with
      | [] => none
      | c2 :: cs2 =>
        let signed : Bool × List Char :=
          if c2 = '-' then (true, cs2)
          else if c2 = '+' then (false, cs2) else (false, c2 :: cs2)
        let ds := signed.2
        if ds.isEmpty then none
        else if ds.all Char.isDigit then
          let e := digitsVal ds
          if signed.1 then some (dnorm m (k + e))
          else if e ≤ k then some (dnorm m (k - e))
          else some (dnorm (m * (10 : Int) ^ (e - k)) 0)
        else none
    else none

/-- Python `float(s)` on a decimal literal: optional sign, digits with an
optional fractional part, optional exponent.  (`inf`/`nan` spellings are
outside the model and rejected.) -/
def parsePyFloat (s : String) : Option Dec :=
  match stripWS s.data with
  | [] => none
  | c :: cs =>
    let signed : Bool × List Char :=
      if c = '-' then (true, cs) else if c = '+' then (false, cs) else (false, c :: cs)
    let l := signed.2
    let ip := List.span Char.isDigit l
    let ds := ip.1
    let applySign : Int → Int := fun m => if signed.1 then -m else m
    match ip.2 with
    | [] => if ds.isEmpty then none else some (dnorm (applySign (digitsVal ds)) 0)
    | c2 :: cs2 =>
      if c2 = '.' then
        let fp := List.span Char.isDigit cs2
        let fs := fp.1
        if ds.isEmpty && fs.isEmpty then none
        else
          pyFloatExpTail
            (applySign ((digitsVal ds : Int) * (10 : Int) ^ fs.length + (digitsVal fs : Int)))
            fs.length fp.2
      else if ds.isEmpty then none
      else pyFloatExpTail (applySign (digitsVal ds)) 0 (c2 :: cs2)

/- ===================== sky.py : star grouping ===================== -/

/-- Color classification from `group_stars_by_magnitude`:
`bv < 0.00 → "blue"`, `bv < 0.59 → "white"`, otherwise `"red"`. -/
def color (bv : Dec) : String :=
  if dltB bv ⟨0, 0⟩ then "blue"
  else if dltB bv ⟨59, 2⟩ then "white"
  else "red"

/-- `defaultdict(list)` accumulation: append `v` to the list stored at
`k`, creating the entry on first use.  Entries keep first-insertion
order. -/
def upsert {α β : Type} [DecidableEq α] (k : α) (v : β) :
    List (α × List β) → List (α × List β)
  | [] => [(k, [v])]
  | (k', vs) :: rest =>
    if k' = k then (k', vs ++ [v]) :: rest else (k', vs) :: upsert k v rest

/-- `group_stars_by_magnitude`: records are `(ra, dec, magnitude, bv)`
tuples, as yielded by `parse_hipparcos`; each contributes the coordinate
pair `[-ra, dec]` to the group keyed `(int(magnitude), color)`. -/
def group_stars_by_magnitude (records : List (Dec × Dec × Dec × Dec)) :
    List ((Int × String) × List (Dec × Dec)) :=
  records.foldl
    (fun groups r =>
      upsert (pyTrunc r.2.2.1, color r.2.2.2) (dneg r.1, r.2.1) groups)
    []

/- ===================== sky.py : boundary parsing ===================== -/

/-- `math.copysign(m, d)` for integer arguments: the magnitude of `m`
with the sign of `float(d)`.  The integer `0` converts to positive
`0.0`, so `d = 0` yields the positive magnitude. -/
def copysign (m d : Int) : Int :=
  if d < 0 then -(m.natAbs : Int) else (m.natAbs : Int)

/-- `ra = (60 * h + m) * 60 + s`. -/
def raFromInts (h m s : Int) : Int := (60 * h + m) * 60 + s

/-- `m = copysign(m, d); dec = 60 * d + m`. -/
def decFromInts (d m : Int) : Int := 60 * d + copysign m d

/-- The declination conversion after the three fields have been parsed:
`assert s == 0` then the sign-copy rule.  The failed assertion is
modelled as `none`. -/
def decConvert (d m s : Int) : Option Int :=
  if s = 0 then some (decFromInts d m) else none

/-- `[int(s) for s in ra_text.split(':')]` destructured into `h, m, s`,
then converted to arc-seconds. -/
def parseRAText (t : String) : Option Int :=
  match (pySplitAll ':' t).map parsePyInt with
  | [some h, some m, some s] => some (raFromInts h m s)
  | _ => none

/-- `[int(s) for s in dec_text.split(':')]` destructured into `d, m, s`,
then converted to signed arc-minutes. -/
def parseDecText (t : String) : Option Int :=
  match (pySplitAll ':' t).map parsePyInt with
  | [some d, some m, some s] => decConvert d m s
  | _ => none

/-- One line of `bound_verts_18.txt`:
`vertex_key, ra_text, dec_text, con, cons = line.split(' ', 4)` followed
by the two angle conversions.  Yields `(con, ra, dec)`. -/
def parseBoundaryLine (line : String) : Option (String × Int × Int) :=
  match pySplitMax ' ' 4 line with
  | [_, raT, decT, con, _] =>
    match parseRAText raT, parseDecText decT with
    | some ra, some dec => some (con, ra, dec)
    | _, _ => none
  | _ => none

/-- Byte-wise lexicographic comparison of character lists, the order
Python 2 uses to compare the (ASCII) constellation-code strings. -/
def charListLt : List Char → List Char → Bool
  | [], [] => false
  | [], _ :: _ => true
  | _ :: _, [] => false
  | a :: xs, b :: ys =>
    if a.toNat < b.toNat then true
    else if b.toNat < a.toNat then false
    else charListLt xs ys

/-- Insert one accumulated boundary into a key-sorted list. -/
def insertBoundary (p : String × List (Int × Int)) :
    List (String × List (Int × Int)) → List (String × List (Int × Int))
  | [] => [p]
  | q :: rest =>
    if charListLt p.1.data q.1.data then p :: q :: rest
    else q :: insertBoundary p rest

/-- `sorted(boundaries.items())`: sort the accumulated entries by
constellation code (keys are distinct, so only the key order matters). -/
def sortBoundaries (l : List (String × List (Int × Int))) :
    List (String × List (Int × Int)) :=
  l.foldr insertBoundary []

/-- Sequence a fallible parse over all lines: any failing line aborts
the whole run with no output, like an uncaught Python exception. -/
def mapOption {α β : Type} (f : α → Option β) : List α → Option (List β)
  | [] => some []
  | a :: l =>
    match f a, mapOption f l with
    | some b, some bs => some (b :: bs)
    | _, _ => none

/-- `build_boundary_data`, as a function of the lines of
`bound_verts_18.txt`: parse every line, accumulate the vertices per
constellation code in input order, and sort the result by code.  The
`{"type": "Polygon", "coordinates": [...]}` wrapping is applied by
`boundaryJ` below. -/
def build_boundary_data (lines : List String) :
    Option (List (String × List (Int × Int))) :=
  match mapOption parseBoundaryLine lines with
  | some recs =>
    some (sortBoundaries
      (recs.foldl (fun acc r => upsert r.1 (r.2.1, r.2.2) acc) []))
  | none => none

/- ===================== sky.py : decision loading ===================== -/

/-- One line of `data.dat`:
`ra0, ra1, dec, con = line.split()` then
`float(ra0) * 15.0, float(ra1) * 15.0, float(dec), con.upper()`. -/
def parseDecisionLine (line : String) : Option (Dec × Dec × Dec × String) :=
  match pySplitWS line with
  | [a, b, c, d] =>
    match parsePyFloat a, parsePyFloat b, parsePyFloat c with
    | some ra0, some ra1, some dec =>
      some (dmul ra0 ⟨15, 0⟩, dmul ra1 ⟨15, 0⟩, dec,
        String.mk (d.data.map Char.toUpper))
    | _, _, _ => none
  | _ => none

/-- `load_decision_data`, as a function of the lines of `data.dat`. -/
def load_decision_data (lines : List String) :
    Option (List (Dec × Dec × Dec × String)) :=
  mapOption parseDecisionLine lines

/- ===================== JSON values ===================== -/

/-- The JSON-compatible values the program serializes: Python ints,
floats, strings, lists/tuples and (ordered) dicts. -/
inductive JVal : Type where
  | jint : Int → JVal
  | jfloat : Dec → JVal
  | jstr : String → JVal
  | jarr : List JVal → JVal
  | jobj : List (String × JVal) → JVal

compile_inductive% JVal

/- Named characters, to keep quote characters out of the source text. -/

/-- The double-quote character `"` (codepoint 34). -/
def dq : Char := Char.ofNat 34

/-- The single-quote character (codepoint 39), the replacement quote
used by `jsonify`. -/
def squote : Char := Char.ofNat 39

/-- The backslash character (codepoint 92). -/
def bslash : Char := Char.ofNat 92

/-- The opening-brace character (codepoint 123). -/
def lbrace : Char := Char.ofNat 123

/-- The closing-brace character (codepoint 125). -/
def rbrace : Char := Char.ofNat 125

/- ===================== json.dumps ===================== -/

/-- Decimal digit characters of `m`, most significant first; `fuel`
bounds the recursion depth and any `fuel > m` is enough. -/
def natCharsAux : Nat → Nat → List Char
  | 0, _ => []
  | fuel + 1, m =>
    if m < 10 then [Char.ofNat (48 + m)]
    else natCharsAux fuel (m / 10) ++ [Char.ofNat (48 + m % 10)]

/-- Decimal digit characters of a natural number. -/
def natChars (m : Nat) : List Char := natCharsAux (m + 1) m

/-- Python's decimal rendering of an integer. -/
def intChars (n : Int) : List Char :=
  if n < 0 then '-' :: natChars n.natAbs else natChars n.natAbs

/-- Left-pad a digit list with zeros to length `k`. -/
def padZeros (k : Nat) (l : List Char) : List Char :=
  List.replicate (k - l.length) '0' ++ l

/-- `repr` of a Python float in the plain-decimal range: sign, integer
part, decimal point, and the `exp` fractional digits (a single `0` when
the value is integral, as in `repr(330.0) = "330.0"`). -/
def floatChars (d : Dec) : List Char :=
  let a := d.mant.natAbs
  let intPart := natChars (a / 10 ^ d.exp)
  let fracPart :=
    if d.exp = 0 then ['0'] else padZeros d.exp (natChars (a % 10 ^ d.exp))
  (if d.mant < 0 then ['-'] else []) ++ intPart ++ '.' :: fracPart

/-- A hexadecimal digit character (lowercase, as `json.dumps` emits). -/
def hexDigit (n : Nat) : Char :=
  if n < 10 then Char.ofNat (48 + n) else Char.ofNat (87 + n)

/-- Four hexadecimal digits of `n < 0x10000`. -/
def hex4 (n : Nat) : List Char :=
  [hexDigit (n / 4096 % 16), hexDigit (n / 256 % 16),
   hexDigit (n / 16 % 16), hexDigit (n % 16)]

/-- The `\uXXXX` escape (with a surrogate pair beyond the basic
multilingual plane) that `json.dumps` uses for control and non-ASCII
characters. -/
def uniEscape (c : Char) : List Char :=
  let n := c.toNat
  if n < 65536 then bslash :: 'u' :: hex4 n
  else
    let m := n - 65536
    bslash :: 'u' :: hex4 (55296 + m / 1024) ++ bslash :: 'u' :: hex4 (56320 + m % 1024)

/-- `json.dumps` escaping of one character inside a string literal. -/
def escChar (c : Char) : List Char :=
  if c = dq then [bslash, dq]
  else if c = bslash then [bslash, bslash]
  else if c = Char.ofNat 10 then [bslash, 'n']
  else if c = Char.ofNat 9 then [bslash, 't']
  else if c = Char.ofNat 13 then [bslash, 'r']
  else if c = Char.ofNat 8 then [bslash, 'b']
  else if c = Char.ofNat 12 then [bslash, 'f']
  else if c.toNat < 32 ∨ c.toNat ≥ 127 then uniEscape c
  else [c]

/-- The body of a JSON string literal: the escaped characters followed
by the closing quote. -/
def escBody (l : List Char) : List Char :=
  l.foldr (fun c acc => escChar c ++ acc) [dq]

/-- A JSON string literal: quote, escaped characters, quote. -/
def strChars (s : String) : List Char := dq :: escBody s.data

/- `json.dumps(data, separators=(',', ':'))`, rendered to characters.
The fuel argument only bounds the recursion depth; `dmpV` below
instantiates it sufficiently.  The four functions mirror the grammar:
a value, the tail of an array after its first element, one `key:value`
pair, and the tail of an object after its first pair. -/
mutual
def dumpV : Nat → JVal → List Char
  | 0, _ => []
  | _ + 1, JVal.jint n => intChars n
  | _ + 1, JVal.jfloat d => floatChars d
  | _ + 1, JVal.jstr s => strChars s
  | _ + 1, JVal.jarr [] => ['[', ']']
  | f + 1, JVal.jarr (v :: vs) => '[' :: dumpV f v ++ dumpAT f vs
  | _ + 1, JVal.jobj [] => [lbrace, rbrace]
  | f + 1, JVal.jobj (p :: ps) => lbrace :: dumpPair f p ++ dumpOT f ps

def dumpAT : Nat → List JVal → List Char
  | 0, _ => []
  | _ + 1, [] => [']']
  | f + 1, v :: vs => ',' :: dumpV f v ++ dumpAT f vs

def dumpPair : Nat → String × JVal → List Char
  | 0, _ => []
  | f + 1, p => strChars p.1 ++ ':' :: dumpV f p.2

def dumpOT : Nat → List (String × JVal) → List Char
  | 0, _ => []
  | _ + 1, [] => [rbrace]
  | f + 1, p :: ps => ',' :: dumpPair f p ++ dumpOT f ps
end

/-- `json.dumps(v, separators=(',', ':'))` with sufficient fuel. -/
def dmpV (v : JVal) : List Char := dumpV (sizeOf v) v

/-- Array tail with sufficient fuel. -/
def dmpA (l : List JVal) : List Char := dumpAT (sizeOf l) l

/-- Object pair with sufficient fuel. -/
def dmpP (p : String × JVal) : List Char := dumpPair (sizeOf p) p

/-- Object tail with sufficient fuel. -/
def dmpO (l : List (String × JVal)) : List Char := dumpOT (sizeOf l) l

/-- Python `text.replace(old, new)` for single characters. -/
def pyReplace (old new : Char) (l : List Char) : List Char :=
  l.map fun c => if c = old then new else c

/-- `jsonify`: render as compact JSON, then replace every double quote
with a single quote. -/
def jsonify (v : JVal) : String := String.mk (pyReplace dq squote (dmpV v))

/- ===================== A standard JSON parser ===================== -/

/-- Read the remainder of a string literal (the opening quote already
consumed), returning the decoded characters and the rest of the input.
Handles the `\"` and `\\` escapes. -/
def parseStr : List Char → Option (List Char × List Char)
  | [] => none
  | [c] => if c = dq then some ([], []) else none
  | c :: c2 :: cs =>
    if c = dq then some ([], c2 :: cs)
    else if c = bslash then
      if c2 = dq ∨ c2 = bslash then
        match parseStr cs with
        | some (s, r) => some (c2 :: s, r)
        | none => none
      else none
    else
      match parseStr (c2 :: cs) with
      | some (s, r) => some (c :: s, r)
      | none => none

/-- Apply an optional leading minus sign to a parsed magnitude. -/
def pyNumSign (neg : Bool) (m : Int) : Int := if neg then -m else m

/-- Read an unsigned JSON number (integer digits and an optional
fractional part) and the sign flag already consumed, yielding `jint` or
`jfloat` respectively. -/
def parseNumCore (neg : Bool) (l : List Char) : Option (JVal × List Char) :=
  if (List.span Char.isDigit l).1.isEmpty then none
  else if (List.span Char.isDigit l).2.head? = some '.' then
    if (List.span Char.isDigit (List.span Char.isDigit l).2.tail).1.isEmpty then none
    else
      some (JVal.jfloat (dnorm
          (pyNumSign neg
            ((digitsVal (List.span Char.isDigit l).1 : Int) *
                (10 : Int) ^
                  (List.span Char.isDigit (List.span Char.isDigit l).2.tail).1.length +
              (digitsVal (List.span Char.isDigit (List.span Char.isDigit l).2.tail).1 : Int)))
          (List.span Char.isDigit (List.span Char.isDigit l).2.tail).1.length),
        (List.span Char.isDigit (List.span Char.isDigit l).2.tail).2)
  else
    some (JVal.jint (pyNumSign neg (digitsVal (List.span Char.isDigit l).1)),
      (List.span Char.isDigit l).2)

/-- Read a JSON number: optional minus sign, then the unsigned body. -/
def parseNum : List Char → Option (JVal × List Char)
  | [] => none
  | c :: t => if c = '-' then parseNumCore true t else parseNumCore false (c :: t)

/- A recursive-descent parser for the compact JSON emitted by
`json.dumps`: a value, the tail of an array, a `key:value` pair, and
the tail of an object.  The fuel bounds the recursion depth; any fuel
of at least the input length is enough. -/
mutual
def parseV : Nat → List Char → Option (JVal × List Char)
  | 0, _ => none
  | _ + 1, [] => none
  | f + 1, c :: cs =>
    if c = dq then
      match parseStr cs with
      | some (s, r) => some (JVal.jstr (String.mk s), r)
      | none => none
    else if c = '[' then
      match cs with
      | [] => none
      | d :: cs2 =>
        if d = ']' then some (JVal.jarr [], cs2)
        else
          match parseV f cs with
          | some (v, r1) =>
            match parseAT f r1 with
            | some (vs, r2) => some (JVal.jarr (v :: vs), r2)
            | none => none
          | none => none
    else if c = lbrace then
      match cs with
      | [] => none
      | d :: cs2 =>
        if d = rbrace then some (JVal.jobj [], cs2)
        else
          match parsePair f cs with
          | some (p, r1) =>
            match parseOT f r1 with
            | some (ps, r2) => some (JVal.jobj (p :: ps), r2)
            | none => none
          | none => none
    else parseNum (c :: cs)

def parseAT : Nat → List Char → Option (List JVal × List Char)
  | 0, _ => none
  | _ + 1, [] => none
  | f + 1, c :: cs =>
    if c = ']' then some ([], cs)
    else if c = ',' then
      match parseV f cs with
      | some (v, r1) =>
        match parseAT f r1 with
        | some (vs, r2) => some (v :: vs, r2)
        | none => none
      | none => none
    else none

def parsePair : Nat → List Char → Option ((String × JVal) × List Char)
  | 0, _ => none
  | _ + 1, [] => none
  | f + 1, c :: cs =>
    if c = dq then
      match parseStr cs with
      | some (k, r1) =>
        match r1 with
        | [] => none
        | d :: r2 =>
          if d = ':' then
            match parseV f r2 with
            | some (v, r3) => some ((String.mk k, v), r3)
            | none => none
          else none
      | none => none
    else none

def parseOT : Nat → List Char → Option (List (String × JVal) × List Char)
  | 0, _ => none
  | _ + 1, [] => none
  | f + 1, c :: cs =>
    if c = rbrace then some ([], cs)
    else if c = ',' then
      match parsePair f cs with
      | some (p, r1) =>
        match parseOT f r1 with
        | some (ps, r2) => some (p :: ps, r2)
        | none => none
      | none => none
    else none
end

/-- Reverse the quote substitution and run the standard JSON parser,
requiring it to consume the whole text (as `json.loads` does). -/
def unjsonify (s : String) : Option JVal :=
  let cs := pyReplace squote dq s.data
  match parseV (cs.length + 1) cs with
  | some (v, []) => some v
  | _ => none

/- ===================== Side conditions for the round trip ===================== -/

/-- A string character for which the serializer's quote trick is
lossless: printable ASCII other than the replacement quote itself. -/
def goodChar (c : Char) : Bool :=
  32 ≤ c.toNat && c.toNat < 127 && c ≠ squote

/-- All characters of a string are `goodChar`. -/
def goodStr (s : String) : Bool := s.data.all goodChar

/-- A float whose `repr` is in the plain-decimal range (Python switches
to exponent notation below `1e-4` and from `1e16` up) and whose `Dec`
representation is canonical. -/
def dOk (d : Dec) : Bool :=
  (d.exp == 0 || decide (¬ d.mant % 10 = 0)) &&
    decide (d.mant.natAbs < 10 ^ (16 + d.exp)) &&
    (d.mant == 0 || decide (10 ^ d.exp ≤ d.mant.natAbs * 10 ^ 4))

/-- The structures for which the round trip is claimed: every string
(keys included) is printable ASCII without single quotes, and every
float is a canonical plain-decimal value. -/
inductive GoodV : JVal → Prop where
  | gint : ∀ n, GoodV (JVal.jint n)
  | gfloat : ∀ d, dOk d = true → GoodV (JVal.jfloat d)
  | gstr : ∀ s, goodStr s = true → GoodV (JVal.jstr s)
  | garr : ∀ l, (∀ v ∈ l, GoodV v) → GoodV (JVal.jarr l)
  | gobj : ∀ l, (∀ p ∈ l, goodStr p.1 = true) → (∀ p ∈ l, GoodV p.2) →
      GoodV (JVal.jobj l)

/-- The continuation condition used by the round-trip proof: the text
that follows a serialized number may not start with a digit or a
decimal point (inside the emitted JSON it is always a separator or a
closing bracket). -/
def stopTok (r : List Char) : Prop :=
  ∀ c, r.head? = some c → (c.isDigit = false ∧ c ≠ '.')

/- ===================== The emitted output structures ===================== -/

/-- A boundary vertex `[ra, dec]` as serialized: the right ascension is
a Python int, the declination a Python float (the value `copysign`
returned made `dec = 60 * d + m` a float). -/
def vertexJ (v : Int × Int) : JVal :=
  JVal.jarr [JVal.jint v.1, JVal.jfloat ⟨v.2, 0⟩]

/-- `{"type": "Polygon", "coordinates": [ring]}` for one constellation. -/
def polyJ (vs : List (Int × Int)) : JVal :=
  JVal.jobj [("type", JVal.jstr "Polygon"),
    ("coordinates", JVal.jarr [JVal.jarr (vs.map vertexJ)])]

/-- The boundary mapping as a JSON object. -/
def boundaryJ (bd : List (String × List (Int × Int))) : JVal :=
  JVal.jobj (bd.map fun p => (p.1, polyJ p.2))

/-- `build_boundary_data` composed with its serialization shape. -/
def buildBoundaryJ (lines : List String) : Option JVal :=
  match build_boundary_data lines with
  | some bd => some (boundaryJ bd)
  | none => none

/- ===================== Helper lemmas ===================== -/

/-- Bridge between the executable float comparison and rational values. -/
theorem dltB_iff (a b : Dec) : dltB a b = true ↔ dval a < dval b := by
  unfold dltB dval
  rw [decide_eq_true_eq, div_lt_div_iff₀ (by positivity) (by positivity)]
  constructor
  · intro h; exact_mod_cast h
  · intro h; exact_mod_cast h

/-- A failing line aborts the whole `mapOption` run. -/
theorem mapOption_eq_none {α β : Type} (f : α → Option β) :
    ∀ l a, a ∈ l → f a = none → mapOption f l = none := by
  intro l
  induction l with
  | nil => intro a h; cases h
  | cons b t ih =>
    intro a hmem hfail
    unfold mapOption
    rcases List.mem_cons.mp hmem with h | h
    · subst h; rw [hfail]
    · rw [ih a h hfail]
      cases f b <;> rfl

/-- A successful `mapOption` run has the length of its input and acts
pointwise, in order. -/
theorem mapOption_length_get {α β : Type} (f : α → Option β) :
    ∀ l out, mapOption f l = some out →
      out.length = l.length ∧
      ∀ i (hi : i < l.length) (ho : i < out.length),
        f (l.get ⟨i, hi⟩) = some (out.get ⟨i, ho⟩) := by
  intro l
  induction l with
  | nil =>
    intro out h
    unfold mapOption at h
    cases h
    exact ⟨rfl, fun i hi => absurd hi (by simp)⟩
  | cons a t ih =>
    intro out h
    unfold mapOption at h
    cases hfa : f a with
    | none => rw [hfa] at h; exact Option.noConfusion h
    | some b =>
      rw [hfa] at h
      cases hfl : mapOption f t with
      | none => rw [hfl] at h; exact Option.noConfusion h
      | some bs =>
        rw [hfl] at h
        cases h
        obtain ⟨hlen, hget⟩ := ih bs hfl
        refine ⟨by simpa using hlen, ?_⟩
        intro i hi ho
        match i with
        | 0 => simpa using hfa
        | Nat.succ j =>
          have hj : j < t.length := by simpa using hi
          have hj2 : j < bs.length := by simpa using ho
          simpa using hget j hj hj2

/- Digit-rendering lemmas -/

theorem digitsVal_append (l : List Char) (c : Char) :
    digitsVal (l ++ [c]) = 10 * digitsVal l + digitVal c := by
  unfold digitsVal
  rw [List.foldl_append]
  rfl

theorem digitsVal_replicate_zero (n : Nat) (l : List Char) :
    digitsVal (List.replicate n '0' ++ l) = digitsVal l := by
  induction n with
  | zero => rfl
  | succ k ih =>
    rw [List.replicate_succ, List.cons_append]
    unfold digitsVal at ih ⊢
    simpa using ih

theorem natCharsAux_fuel : ∀ f g m, m < f → m < g → natCharsAux f m = natCharsAux g m := by
  intro f
  induction f with
  | zero => intro g m h; omega
  | succ f ih =>
    intro g m hf hg
    obtain ⟨g', rfl⟩ : ∃ g', g = g' + 1 := ⟨g - 1, by omega⟩
    unfold natCharsAux
    by_cases h10 : m < 10
    · rw [if_pos h10, if_pos h10]
    · rw [if_neg h10, if_neg h10]
      have hlt : m / 10 < m := Nat.div_lt_self (by omega) (by omega)
      rw [ih g' (m / 10) (by omega) (by omega)]

theorem natChars_eq_aux (f m : Nat) (h : m < f) : natCharsAux f m = natChars m :=
  natCharsAux_fuel f (m + 1) m h (Nat.lt_succ_self m)

theorem natCharsAux_digits :
    ∀ f m c, m < f → c ∈ natCharsAux f m → c.isDigit = true := by
  intro f
  induction f with
  | zero => intro m c h; omega
  | succ f ih =>
    intro m c hf hmem
    unfold natCharsAux at hmem
    by_cases h10 : m < 10
    · rw [if_pos h10] at hmem
      rcases List.mem_singleton.mp hmem with rfl
      interval_cases m <;> decide
    · rw [if_neg h10] at hmem
      rcases List.mem_append.mp hmem with h | h
      · have hlt : m / 10 < m := Nat.div_lt_self (by omega) (by omega)
        exact ih (m / 10) c (by omega) h
      · rcases List.mem_singleton.mp h with rfl
        have hk : m % 10 < 10 := Nat.mod_lt m (by omega)
        generalize hq : m % 10 = k at hk ⊢
        interval_cases k <;> decide

theorem natChars_digits (m : Nat) : ∀ c ∈ natChars m, c.isDigit = true :=
  fun c h => natCharsAux_digits (m + 1) m c (Nat.lt_succ_self m) h

theorem digitsVal_natCharsAux : ∀ f m, m < f → digitsVal (natCharsAux f m) = m := by
  intro f
  induction f with
  | zero => intro m h; omega
  | succ f ih =>
    intro m hf
    unfold natCharsAux
    by_cases h10 : m < 10
    · rw [if_pos h10]
      interval_cases m <;> decide
    · rw [if_neg h10]
      have hlt : m / 10 < m := Nat.div_lt_self (by omega) (by omega)
      rw [digitsVal_append, ih (m / 10) (by omega)]
      have hk : m % 10 < 10 := Nat.mod_lt m (by omega)
      have hdig : digitVal (Char.ofNat (48 + m % 10)) = m % 10 := by
        generalize hq : m % 10 = k at hk ⊢
        interval_cases k <;> decide
      rw [hdig]
      omega

theorem digitsVal_natChars (m : Nat) : digitsVal (natChars m) = m :=
  digitsVal_natCharsAux (m + 1) m (Nat.lt_succ_self m)

theorem natCharsAux_ne_nil : ∀ f m, m < f → natCharsAux f m ≠ [] := by
  intro f
  induction f with
  | zero => intro m h; omega
  | succ f ih =>
    intro m hf
    unfold natCharsAux
    by_cases h10 : m < 10
    · rw [if_pos h10]; simp
    · rw [if_neg h10]; simp

theorem natChars_ne_nil (m : Nat) : natChars m ≠ [] :=
  natCharsAux_ne_nil (m + 1) m (Nat.lt_succ_self m)

theorem natCharsAux_length :
    ∀ f m k, m < f → m < 10 ^ k → 0 < k → (natCharsAux f m).length ≤ k := by
  intro f
  induction f with
  | zero => intro m k h; omega
  | succ f ih =>
    intro m k hf hm hk
    unfold natCharsAux
    by_cases h10 : m < 10
    · rw [if_pos h10]; simpa using hk
    · rw [if_neg h10]
      have hlt : m / 10 < m := Nat.div_lt_self (by omega) (by omega)
      have hdiv : m / 10 < 10 ^ (k - 1) := by
        rw [Nat.div_lt_iff_lt_mul (by omega)]
        calc m < 10 ^ k := hm
        _ = 10 ^ (k - 1) * 10 := by
              rw [← Nat.pow_succ]
              congr 1
              omega
      have hk1 : 0 < k - 1 := by
        by_contra hc
        have : k = 1 := by omega
        subst this
        simp at hdiv
        omega
      have := ih (m / 10) (k - 1) (by omega) hdiv hk1
      rw [List.length_append]
      simp only [List.length_singleton]
      omega

theorem natChars_length (m k : Nat) (hm : m < 10 ^ k) (hk : 0 < k) :
    (natChars m).length ≤ k :=
  natCharsAux_length (m + 1) m k (Nat.lt_succ_self m) hm hk

theorem padZeros_length (k : Nat) (l : List Char) (h : l.length ≤ k) :
    (padZeros k l).length = k := by
  unfold padZeros
  rw [List.length_append, List.length_replicate]
  omega

theorem digitsVal_padZeros (k : Nat) (l : List Char) :
    digitsVal (padZeros k l) = digitsVal l :=
  digitsVal_replicate_zero (k - l.length) l

theorem padZeros_digits (k : Nat) (l : List Char)
    (h : ∀ c ∈ l, c.isDigit = true) : ∀ c ∈ padZeros k l, c.isDigit = true := by
  intro c hc
  rcases List.mem_append.mp hc with h0 | h0
  · rcases List.eq_of_mem_replicate h0 with rfl
    decide
  · exact h c h0

/- Span lemmas -/

theorem takeWhile_eats (p : Char → Bool) :
    ∀ (l r : List Char), (∀ c ∈ l, p c = true) →
      (∀ c, r.head? = some c → p c = false) → (l ++ r).takeWhile p = l := by
  intro l
  induction l with
  | nil =>
    intro r _ hr
    cases r with
    | nil => rfl
    | cons c t =>
      rw [List.nil_append, List.takeWhile_cons, hr c rfl]
      simp
  | cons a l ih =>
    intro r hl hr
    rw [List.cons_append, List.takeWhile_cons, hl a (List.mem_cons_self a l),
      if_pos rfl, ih r (fun c hc => hl c (List.mem_cons_of_mem a hc)) hr]

theorem dropWhile_eats (p : Char → Bool) :
    ∀ (l r : List Char), (∀ c ∈ l, p c = true) →
      (∀ c, r.head? = some c → p c = false) → (l ++ r).dropWhile p = r := by
  intro l
  induction l with
  | nil =>
    intro r _ hr
    cases r with
    | nil => rfl
    | cons c t =>
      rw [List.nil_append, List.dropWhile_cons, hr c rfl]
      simp
  | cons a l ih =>
    intro r hl hr
    rw [List.cons_append, List.dropWhile_cons, hl a (List.mem_cons_self a l),
      if_pos rfl]
    exact ih r (fun c hc => hl c (List.mem_cons_of_mem a hc)) hr

theorem span_eats (p : Char → Bool) (l r : List Char)
    (hl : ∀ c ∈ l, p c = true) (hr : ∀ c, r.head? = some c → p c = false) :
    List.span p (l ++ r) = (l, r) := by
  rw [List.span_eq_take_drop, takeWhile_eats p l r hl hr, dropWhile_eats p l r hl hr]

/- Character classification -/

theorem digit_ne (c : Char) (h : c.isDigit = true) :
    c ≠ '-' ∧ c ≠ '.' ∧ c ≠ dq ∧ c ≠ '[' ∧ c ≠ ']' ∧ c ≠ lbrace ∧ c ≠ rbrace ∧
    c ≠ ',' ∧ c ≠ ':' ∧ c ≠ squote ∧ c ≠ bslash := by
  refine ⟨?_, ?_, ?_, ?_, ?_, ?_, ?_, ?_, ?_, ?_, ?_⟩ <;>
    (intro he; subst he; revert h; decide)

theorem stopTok_nil : stopTok [] := by
  intro c h
  exact Option.noConfusion h

theorem stopTok_cons (c : Char) (t : List Char)
    (h1 : c.isDigit = false) (h2 : c ≠ '.') : stopTok (c :: t) := by
  intro x hx
  cases hx
  exact ⟨h1, h2⟩

/- parseNum lemmas -/

theorem parseNumCore_int (neg : Bool) (dsl r : List Char) (hne : dsl ≠ [])
    (hdig : ∀ c ∈ dsl, c.isDigit = true) (hr : stopTok r) :
    parseNumCore neg (dsl ++ r) = some (JVal.jint (pyNumSign neg (digitsVal dsl)), r) := by
  have hspan : List.span Char.isDigit (dsl ++ r) = (dsl, r) :=
    span_eats _ _ _ hdig (fun c hc => (hr c hc).1)
  unfold parseNumCore
  rw [hspan]
  dsimp only
  rw [if_neg (by simp [hne]), if_neg (fun h => (hr '.' h).2 rfl)]

theorem parseNumCore_float (neg : Bool) (dsl fsl r : List Char)
    (hne : dsl ≠ []) (hfne : fsl ≠ [])
    (hdig : ∀ c ∈ dsl, c.isDigit = true) (hfdig : ∀ c ∈ fsl, c.isDigit = true)
    (hr : stopTok r) :
    parseNumCore neg (dsl ++ '.' :: (fsl ++ r)) =
      some (JVal.jfloat (dnorm
          (pyNumSign neg
            ((digitsVal dsl : Int) * (10 : Int) ^ fsl.length + (digitsVal fsl : Int)))
          fsl.length), r) := by
  have hspan : List.span Char.isDigit (dsl ++ '.' :: (fsl ++ r)) =
      (dsl, '.' :: (fsl ++ r)) :=
    span_eats _ _ _ hdig (fun c hc => by cases hc; decide)
  have hspan2 : List.span Char.isDigit (fsl ++ r) = (fsl, r) :=
    span_eats _ _ _ hfdig (fun c hc => (hr c hc).1)
  unfold parseNumCore
  rw [hspan]
  dsimp only
  rw [if_neg (by simp [hne]), List.head?_cons, List.tail_cons, if_pos rfl, hspan2]
  dsimp only
  rw [if_neg (by simp [hfne])]

theorem parseNum_cons (c : Char) (t : List Char) :
    parseNum (c :: t) =
      if c = '-' then parseNumCore true t else parseNumCore false (c :: t) := rfl

theorem parseNum_intChars (n : Int) (r : List Char) (hr : stopTok r) :
    parseNum (intChars n ++ r) = some (JVal.jint n, r) := by
  unfold intChars
  by_cases hn : n < 0
  · rw [if_pos hn, List.cons_append, parseNum_cons, if_pos rfl,
      parseNumCore_int true _ _ (natChars_ne_nil _) (natChars_digits _) hr]
    unfold pyNumSign
    rw [if_pos rfl, digitsVal_natChars, show -(n.natAbs : Int) = n by omega]
  · rw [if_neg hn]
    obtain ⟨c, t, hct⟩ := List.exists_cons_of_ne_nil (natChars_ne_nil n.natAbs)
    have hcdig : c.isDigit = true := natChars_digits n.natAbs c (hct ▸ List.mem_cons_self c t)
    rw [hct, List.cons_append, parseNum_cons, if_neg (digit_ne c hcdig).1,
      ← List.cons_append, ← hct,
      parseNumCore_int false _ _ (natChars_ne_nil _) (natChars_digits _) hr]
    unfold pyNumSign
    rw [if_neg (by simp), digitsVal_natChars, show ((n.natAbs : Nat) : Int) = n by omega]

theorem dnorm_zero_exp (m : Int) : dnorm m 0 = ⟨m, 0⟩ := rfl

theorem dnorm_mul10 (m : Int) : dnorm (m * 10) 1 = ⟨m, 0⟩ := by
  unfold dnorm
  rw [if_pos (Int.mul_emod_left m 10), Int.mul_ediv_cancel m (by norm_num)]
  exact dnorm_zero_exp m

theorem dnorm_self (m : Int) (e : Nat) (h : e = 0 ∨ ¬ m % 10 = 0) :
    dnorm m e = ⟨m, e⟩ := by
  cases e with
  | zero => rfl
  | succ e' =>
    rcases h with h | h
    · exact absurd h (by omega)
    · unfold dnorm
      rw [if_neg h]

theorem dOk_mod (m : Int) (e : Nat) (hok : dOk ⟨m, e⟩ = true) (he : ¬ e = 0) :
    ¬ m % 10 = 0 := by
  unfold dOk at hok
  simp only [Bool.and_eq_true, Bool.or_eq_true, beq_iff_eq, decide_eq_true_eq] at hok
  rcases hok.1.1 with h | h
  · exact absurd h he
  · exact h

theorem parseNum_floatChars (d : Dec) (hok : dOk d = true) (r : List Char)
    (hr : stopTok r) : parseNum (floatChars d ++ r) = some (JVal.jfloat d, r) := by
  obtain ⟨mant, e⟩ := d
  unfold floatChars
  dsimp only
  by_cases he : e = 0
  · subst he
    rw [if_pos rfl]
    simp only [pow_zero, Nat.div_one]
    have h0dig : ∀ c ∈ (['0'] : List Char), c.isDigit = true := by decide
    have h0val : digitsVal ['0'] = 0 := rfl
    have h0len : (['0'] : List Char).length = 1 := rfl
    by_cases hm : mant < 0
    · rw [if_pos hm]
      rw [show (['-'] ++ natChars mant.natAbs ++ '.' :: ['0']) ++ r =
          '-' :: (natChars mant.natAbs ++ '.' :: (['0'] ++ r)) by simp]
      rw [parseNum_cons, if_pos rfl,
        parseNumCore_float true (natChars mant.natAbs) ['0'] r
          (natChars_ne_nil _) (by simp) (natChars_digits _) h0dig hr]
      unfold pyNumSign
      rw [if_pos rfl, digitsVal_natChars, h0val, h0len]
      have hval : -((mant.natAbs : Int) * (10 : Int) ^ (1 : Nat) + ((0 : Nat) : Int)) =
          mant * 10 := by
        rw [pow_one]
        omega
      rw [hval, dnorm_mul10]
    · rw [if_neg hm]
      rw [show (([] : List Char) ++ natChars mant.natAbs ++ '.' :: ['0']) ++ r =
          natChars mant.natAbs ++ '.' :: (['0'] ++ r) by simp]
      obtain ⟨c, t, hct⟩ := List.exists_cons_of_ne_nil (natChars_ne_nil mant.natAbs)
      have hcdig : c.isDigit = true :=
        natChars_digits mant.natAbs c (hct ▸ List.mem_cons_self c t)
      rw [hct, List.cons_append, parseNum_cons, if_neg (digit_ne c hcdig).1,
        ← List.cons_append, ← hct,
        parseNumCore_float false (natChars mant.natAbs) ['0'] r
          (natChars_ne_nil _) (by simp) (natChars_digits _) h0dig hr]
      unfold pyNumSign
      rw [if_neg (by simp), digitsVal_natChars, h0val, h0len]
      have hval : ((mant.natAbs : Int) * (10 : Int) ^ (1 : Nat) + ((0 : Nat) : Int)) =
          mant * 10 := by
        rw [pow_one]
        omega
      rw [hval, dnorm_mul10]
  · rw [if_neg he]
    have hpow : 0 < 10 ^ e := Nat.pos_pow_of_pos e (by omega)
    have hFlt : mant.natAbs % 10 ^ e < 10 ^ e := Nat.mod_lt _ hpow
    have hlen : (padZeros e (natChars (mant.natAbs % 10 ^ e))).length = e :=
      padZeros_length _ _ (natChars_length _ e hFlt (Nat.pos_of_ne_zero he))
    have hfdig := padZeros_digits e (natChars (mant.natAbs % 10 ^ e)) (natChars_digits _)
    have hfne : padZeros e (natChars (mant.natAbs % 10 ^ e)) ≠ [] := by
      intro h
      rw [h] at hlen
      exact he (by simpa using hlen.symm)
    have hfval : digitsVal (padZeros e (natChars (mant.natAbs % 10 ^ e))) =
        mant.natAbs % 10 ^ e := by
      rw [digitsVal_padZeros, digitsVal_natChars]
    have hmod : ¬ mant % 10 = 0 := dOk_mod mant e hok he
    have hdm : ((mant.natAbs / 10 ^ e : Nat) : Int) * (10 : Int) ^ e +
        ((mant.natAbs % 10 ^ e : Nat) : Int) = (mant.natAbs : Int) := by
      rw [mul_comm]
      exact_mod_cast Nat.div_add_mod mant.natAbs (10 ^ e)
    by_cases hm : mant < 0
    · rw [if_pos hm]
      rw [show (['-'] ++ natChars (mant.natAbs / 10 ^ e) ++
            '.' :: padZeros e (natChars (mant.natAbs % 10 ^ e))) ++ r =
          '-' :: (natChars (mant.natAbs / 10 ^ e) ++
            '.' :: (padZeros e (natChars (mant.natAbs % 10 ^ e)) ++ r)) by simp]
      rw [parseNum_cons, if_pos rfl,
        parseNumCore_float true _ _ r (natChars_ne_nil _) hfne
          (natChars_digits _) hfdig hr]
      unfold pyNumSign
      rw [if_pos rfl, digitsVal_natChars, hlen, hfval]
      have hval : -(((mant.natAbs / 10 ^ e : Nat) : Int) * (10 : Int) ^ e +
          ((mant.natAbs % 10 ^ e : Nat) : Int)) = mant := by
        rw [hdm]
        omega
      rw [hval, dnorm_self mant e (Or.inr hmod)]
    · rw [if_neg hm]
      rw [show (([] : List Char) ++ natChars (mant.natAbs / 10 ^ e) ++
            '.' :: padZeros e (natChars (mant.natAbs % 10 ^ e))) ++ r =
          natChars (mant.natAbs / 10 ^ e) ++
            '.' :: (padZeros e (natChars (mant.natAbs % 10 ^ e)) ++ r) by simp]
      obtain ⟨c, t, hct⟩ :=
        List.exists_cons_of_ne_nil (natChars_ne_nil (mant.natAbs / 10 ^ e))
      have hcdig : c.isDigit = true :=
        natChars_digits _ c (hct ▸ List.mem_cons_self c t)
      rw [hct, List.cons_append, parseNum_cons, if_neg (digit_ne c hcdig).1,
        ← List.cons_append, ← hct,
        parseNumCore_float false _ _ r (natChars_ne_nil _) hfne
          (natChars_digits _) hfdig hr]
      unfold pyNumSign
      rw [if_neg (by simp), digitsVal_natChars, hlen, hfval]
      have hval : (((mant.natAbs / 10 ^ e : Nat) : Int) * (10 : Int) ^ e +
          ((mant.natAbs % 10 ^ e : Nat) : Int)) = mant := by
        rw [hdm]
        omega
      rw [hval, dnorm_self mant e (Or.inr hmod)]

/- String-literal lemmas -/

theorem uniEscape_ne_nil (c : Char) : uniEscape c ≠ [] := by
  unfold uniEscape
  dsimp only
  split_ifs <;> simp

theorem escChar_ne_nil (c : Char) : escChar c ≠ [] := by
  unfold escChar
  split_ifs <;> simp [uniEscape_ne_nil c]

theorem escBody_ne_nil (l : List Char) : escBody l ≠ [] := by
  cases l with
  | nil => simp [escBody]
  | cons c t =>
    show escChar c ++ escBody t ≠ []
    simp [escChar_ne_nil c]

theorem escChar_good (c : Char) (hg : goodChar c = true) :
    (c = dq ∧ escChar c = [bslash, dq]) ∨
    (c = bslash ∧ escChar c = [bslash, bslash]) ∨
    (c ≠ dq ∧ c ≠ bslash ∧ escChar c = [c]) := by
  have hb : 32 ≤ c.toNat ∧ c.toNat < 127 := by
    unfold goodChar at hg
    simp only [Bool.and_eq_true, decide_eq_true_eq] at hg
    exact ⟨hg.1.1, hg.1.2⟩
  by_cases h1 : c = dq
  · exact Or.inl ⟨h1, by rw [h1]; decide⟩
  · by_cases h2 : c = bslash
    · exact Or.inr (Or.inl ⟨h2, by rw [h2]; decide⟩)
    · refine Or.inr (Or.inr ⟨h1, h2, ?_⟩)
      have hn10 : c ≠ Char.ofNat 10 := fun h => absurd (h ▸ hb.1) (by decide)
      have hn9 : c ≠ Char.ofNat 9 := fun h => absurd (h ▸ hb.1) (by decide)
      have hn13 : c ≠ Char.ofNat 13 := fun h => absurd (h ▸ hb.1) (by decide)
      have hn8 : c ≠ Char.ofNat 8 := fun h => absurd (h ▸ hb.1) (by decide)
      have hn12 : c ≠ Char.ofNat 12 := fun h => absurd (h ▸ hb.1) (by decide)
      unfold escChar
      rw [if_neg h1, if_neg h2, if_neg hn10, if_neg hn9, if_neg hn13,
        if_neg hn8, if_neg hn12, if_neg (by omega)]

theorem parseStr_cons2 (c c2 : Char) (cs : List Char) :
    parseStr (c :: c2 :: cs) =
      if c = dq then some ([], c2 :: cs)
      else if c = bslash then
        if c2 = dq ∨ c2 = bslash then
          match parseStr cs with
          | some (s, r) => some (c2 :: s, r)
          | none => none
        else none
      else
        match parseStr (c2 :: cs) with
        | some (s, r) => some (c :: s, r)
        | none => none := rfl

theorem parseStr_escBody :
    ∀ (l r : List Char), (∀ c ∈ l, goodChar c = true) →
      parseStr (escBody l ++ r) = some (l, r) := by
  intro l
  induction l with
  | nil =>
    intro r _
    show parseStr ([dq] ++ r) = some ([], r)
    cases r with
    | nil => rfl
    | cons c t => rfl
  | cons c l ih =>
    intro r hg
    have hgc := hg c (List.mem_cons_self c l)
    have hgl : ∀ x ∈ l, goodChar x = true := fun x hx => hg x (List.mem_cons_of_mem c hx)
    show parseStr ((escChar c ++ escBody l) ++ r) = some (c :: l, r)
    rcases escChar_good c hgc with ⟨rfl, he⟩ | ⟨rfl, he⟩ | ⟨h1, h2, he⟩
    · rw [he, show ([bslash, dq] ++ escBody l) ++ r = bslash :: dq :: (escBody l ++ r) by simp,
        parseStr_cons2, if_neg (by decide), if_pos rfl, if_pos (Or.inl rfl), ih r hgl]
    · rw [he, show ([bslash, bslash] ++ escBody l) ++ r =
          bslash :: bslash :: (escBody l ++ r) by simp,
        parseStr_cons2, if_neg (by decide), if_pos rfl, if_pos (Or.inr rfl), ih r hgl]
    · rw [he]
      obtain ⟨c2, cs, hcc⟩ := List.exists_cons_of_ne_nil (escBody_ne_nil l)
      rw [show ([c] ++ escBody l) ++ r = c :: (escBody l ++ r) by simp, hcc,
        List.cons_append, parseStr_cons2, if_neg h1, if_neg h2,
        ← List.cons_append, ← hcc, ih r hgl]

/- sizeOf facts -/

theorem jval_sizeOf_pos (v : JVal) : 1 ≤ sizeOf v := by
  cases v <;>
    simp only [JVal.jint.sizeOf_spec, JVal.jfloat.sizeOf_spec, JVal.jstr.sizeOf_spec,
      JVal.jarr.sizeOf_spec, JVal.jobj.sizeOf_spec] <;>
    omega

theorem list_sizeOf_pos {α : Type} [SizeOf α] (l : List α) : 1 ≤ sizeOf l := by
  cases l <;> simp only [List.nil.sizeOf_spec, List.cons.sizeOf_spec] <;> omega

theorem prod_sizeOf_pos {α β : Type} [SizeOf α] [SizeOf β] (p : α × β) :
    1 ≤ sizeOf p := by
  obtain ⟨a, b⟩ := p
  simp only [Prod.mk.sizeOf_spec]
  omega

/- Fuel irrelevance of the serializer -/

theorem dump_fuel :
    ∀ f, (∀ g v, sizeOf v ≤ f → sizeOf v ≤ g → dumpV f v = dumpV g v) ∧
      (∀ g (l : List JVal), sizeOf l ≤ f → sizeOf l ≤ g → dumpAT f l = dumpAT g l) ∧
      (∀ g (p : String × JVal), sizeOf p ≤ f → sizeOf p ≤ g →
        dumpPair f p = dumpPair g p) ∧
      (∀ g (l : List (String × JVal)), sizeOf l ≤ f → sizeOf l ≤ g →
        dumpOT f l = dumpOT g l) := by
  intro f
  induction f with
  | zero =>
    refine ⟨fun g v hf _ => absurd hf ?_, fun g l hf _ => absurd hf ?_,
      fun g p hf _ => absurd hf ?_, fun g l hf _ => absurd hf ?_⟩
    · have := jval_sizeOf_pos v; omega
    · have := list_sizeOf_pos l; omega
    · have := prod_sizeOf_pos p; omega
    · have := list_sizeOf_pos l; omega
  | succ f ih =>
    obtain ⟨ihV, ihA, ihP, ihO⟩ := ih
    refine ⟨fun g v hf hg => ?_, fun g l hf hg => ?_, fun g p hf hg => ?_,
      fun g l hf hg => ?_⟩
    · obtain ⟨g', rfl⟩ : ∃ g', g = g' + 1 :=
        ⟨g - 1, by have := jval_sizeOf_pos v; omega⟩
      cases v with
      | jint n => rfl
      | jfloat d => rfl
      | jstr s => rfl
      | jarr l =>
        cases l with
        | nil => rfl
        | cons x xs =>
          simp only [JVal.jarr.sizeOf_spec, List.cons.sizeOf_spec] at hf hg
          show '[' :: dumpV f x ++ dumpAT f xs = '[' :: dumpV g' x ++ dumpAT g' xs
          rw [ihV g' x (by omega) (by omega), ihA g' xs (by omega) (by omega)]
      | jobj l =>
        cases l with
        | nil => rfl
        | cons p ps =>
          simp only [JVal.jobj.sizeOf_spec, List.cons.sizeOf_spec] at hf hg
          show lbrace :: dumpPair f p ++ dumpOT f ps =
            lbrace :: dumpPair g' p ++ dumpOT g' ps
          rw [ihP g' p (by omega) (by omega), ihO g' ps (by omega) (by omega)]
    · obtain ⟨g', rfl⟩ : ∃ g', g = g' + 1 :=
        ⟨g - 1, by have := list_sizeOf_pos l; omega⟩
      cases l with
      | nil => rfl
      | cons x xs =>
        simp only [List.cons.sizeOf_spec] at hf hg
        show ',' :: dumpV f x ++ dumpAT f xs = ',' :: dumpV g' x ++ dumpAT g' xs
        rw [ihV g' x (by omega) (by omega), ihA g' xs (by omega) (by omega)]
    · obtain ⟨g', rfl⟩ : ∃ g', g = g' + 1 :=
        ⟨g - 1, by have := prod_sizeOf_pos p; omega⟩
      obtain ⟨k, v⟩ := p
      simp only [Prod.mk.sizeOf_spec] at hf hg
      show strChars k ++ ':' :: dumpV f v = strChars k ++ ':' :: dumpV g' v
      rw [ihV g' v (by omega) (by omega)]
    · obtain ⟨g', rfl⟩ : ∃ g', g = g' + 1 :=
        ⟨g - 1, by have := list_sizeOf_pos l; omega⟩
      cases l with
      | nil => rfl
      | cons p ps =>
        simp only [List.cons.sizeOf_spec] at hf hg
        show ',' :: dumpPair f p ++ dumpOT f ps = ',' :: dumpPair g' p ++ dumpOT g' ps
        rw [ihP g' p (by omega) (by omega), ihO g' ps (by omega) (by omega)]

/- Canonical unfolding equations for the sufficient-fuel serializer -/

theorem dmpV_jint (n : Int) : dmpV (JVal.jint n) = intChars n := by
  unfold dmpV
  obtain ⟨k, hk⟩ : ∃ k, sizeOf (JVal.jint n) = k + 1 :=
    ⟨sizeOf (JVal.jint n) - 1, by have := jval_sizeOf_pos (JVal.jint n); omega⟩
  rw [hk]
  rfl

theorem dmpV_jfloat (d : Dec) : dmpV (JVal.jfloat d) = floatChars d := by
  unfold dmpV
  obtain ⟨k, hk⟩ : ∃ k, sizeOf (JVal.jfloat d) = k + 1 :=
    ⟨sizeOf (JVal.jfloat d) - 1, by have := jval_sizeOf_pos (JVal.jfloat d); omega⟩
  rw [hk]
  rfl

theorem dmpV_jstr (s : String) : dmpV (JVal.jstr s) = strChars s := by
  unfold dmpV
  obtain ⟨k, hk⟩ : ∃ k, sizeOf (JVal.jstr s) = k + 1 :=
    ⟨sizeOf (JVal.jstr s) - 1, by have := jval_sizeOf_pos (JVal.jstr s); omega⟩
  rw [hk]
  rfl

theorem dmpV_jarr_nil : dmpV (JVal.jarr []) = ['[', ']'] := by
  unfold dmpV
  obtain ⟨k, hk⟩ : ∃ k, sizeOf (JVal.jarr ([] : List JVal)) = k + 1 :=
    ⟨sizeOf (JVal.jarr ([] : List JVal)) - 1,
      by have := jval_sizeOf_pos (JVal.jarr ([] : List JVal)); omega⟩
  rw [hk]
  rfl

theorem dmpV_jobj_nil : dmpV (JVal.jobj []) = [lbrace, rbrace] := by
  unfold dmpV
  obtain ⟨k, hk⟩ : ∃ k, sizeOf (JVal.jobj ([] : List (String × JVal))) = k + 1 :=
    ⟨sizeOf (JVal.jobj ([] : List (String × JVal))) - 1,
      by have := jval_sizeOf_pos (JVal.jobj ([] : List (String × JVal))); omega⟩
  rw [hk]
  rfl

theorem dmpV_jarr_cons (v : JVal) (vs : List JVal) :
    dmpV (JVal.jarr (v :: vs)) = '[' :: dmpV v ++ dmpA vs := by
  unfold dmpV dmpA
  obtain ⟨k, hk⟩ : ∃ k, sizeOf (JVal.jarr (v :: vs)) = k + 1 :=
    ⟨sizeOf (JVal.jarr (v :: vs)) - 1,
      by have := jval_sizeOf_pos (JVal.jarr (v :: vs)); omega⟩
  rw [hk]
  simp only [JVal.jarr.sizeOf_spec, List.cons.sizeOf_spec] at hk
  show '[' :: dumpV k v ++ dumpAT k vs = '[' :: dumpV (sizeOf v) v ++ dumpAT (sizeOf vs) vs
  rw [(dump_fuel k).1 (sizeOf v) v (by omega) le_rfl,
    (dump_fuel k).2.1 (sizeOf vs) vs (by omega) le_rfl]

theorem dmpV_jobj_cons (p : String × JVal) (ps : List (String × JVal)) :
    dmpV (JVal.jobj (p :: ps)) = lbrace :: dmpP p ++ dmpO ps := by
  unfold dmpV dmpP dmpO
  obtain ⟨k, hk⟩ : ∃ k, sizeOf (JVal.jobj (p :: ps)) = k + 1 :=
    ⟨sizeOf (JVal.jobj (p :: ps)) - 1,
      by have := jval_sizeOf_pos (JVal.jobj (p :: ps)); omega⟩
  rw [hk]
  simp only [JVal.jobj.sizeOf_spec, List.cons.sizeOf_spec] at hk
  show lbrace :: dumpPair k p ++ dumpOT k ps =
    lbrace :: dumpPair (sizeOf p) p ++ dumpOT (sizeOf ps) ps
  rw [(dump_fuel k).2.2.1 (sizeOf p) p (by omega) le_rfl,
    (dump_fuel k).2.2.2 (sizeOf ps) ps (by omega) le_rfl]

theorem dmpA_nil : dmpA ([] : List JVal) = [']'] := by
  unfold dmpA
  obtain ⟨k, hk⟩ : ∃ k, sizeOf ([] : List JVal) = k + 1 :=
    ⟨sizeOf ([] : List JVal) - 1, by have := list_sizeOf_pos ([] : List JVal); omega⟩
  rw [hk]
  rfl

theorem dmpA_cons (v : JVal) (vs : List JVal) :
    dmpA (v :: vs) = ',' :: dmpV v ++ dmpA vs := by
  unfold dmpA dmpV
  obtain ⟨k, hk⟩ : ∃ k, sizeOf (v :: vs) = k + 1 :=
    ⟨sizeOf (v :: vs) - 1, by have := list_sizeOf_pos (v :: vs); omega⟩
  rw [hk]
  simp only [List.cons.sizeOf_spec] at hk
  show ',' :: dumpV k v ++ dumpAT k vs = ',' :: dumpV (sizeOf v) v ++ dumpAT (sizeOf vs) vs
  rw [(dump_fuel k).1 (sizeOf v) v (by omega) le_rfl,
    (dump_fuel k).2.1 (sizeOf vs) vs (by omega) le_rfl]

theorem dmpP_eq (k : String) (v : JVal) :
    dmpP (k, v) = strChars k ++ ':' :: dmpV v := by
  unfold dmpP dmpV
  obtain ⟨m, hm⟩ : ∃ m, sizeOf ((k, v) : String × JVal) = m + 1 :=
    ⟨sizeOf ((k, v) : String × JVal) - 1,
      by have := prod_sizeOf_pos ((k, v) : String × JVal); omega⟩
  rw [hm]
  simp only [Prod.mk.sizeOf_spec] at hm
  show strChars k ++ ':' :: dumpV m v = strChars k ++ ':' :: dumpV (sizeOf v) v
  rw [(dump_fuel m).1 (sizeOf v) v (by omega) le_rfl]

theorem dmpO_nil : dmpO ([] : List (String × JVal)) = [rbrace] := by
  unfold dmpO
  obtain ⟨k, hk⟩ : ∃ k, sizeOf ([] : List (String × JVal)) = k + 1 :=
    ⟨sizeOf ([] : List (String × JVal)) - 1,
      by have := list_sizeOf_pos ([] : List (String × JVal)); omega⟩
  rw [hk]
  rfl

theorem dmpO_cons (p : String × JVal) (ps : List (String × JVal)) :
    dmpO (p :: ps) = ',' :: dmpP p ++ dmpO ps := by
  unfold dmpO dmpP
  obtain ⟨k, hk⟩ : ∃ k, sizeOf (p :: ps) = k + 1 :=
    ⟨sizeOf (p :: ps) - 1, by have := list_sizeOf_pos (p :: ps); omega⟩
  rw [hk]
  simp only [List.cons.sizeOf_spec] at hk
  show ',' :: dumpPair k p ++ dumpOT k ps =
    ',' :: dumpPair (sizeOf p) p ++ dumpOT (sizeOf ps) ps
  rw [(dump_fuel k).2.2.1 (sizeOf p) p (by omega) le_rfl,
    (dump_fuel k).2.2.2 (sizeOf ps) ps (by omega) le_rfl]

/- Shape facts about the serializer output -/

theorem intChars_ne_nil (n : Int) : intChars n ≠ [] := by
  unfold intChars
  split_ifs <;> simp [natChars_ne_nil]

theorem floatChars_ne_nil (d : Dec) : floatChars d ≠ [] := by
  unfold floatChars
  dsimp only
  split_ifs <;> simp

theorem dmpV_ne_nil (v : JVal) : dmpV v ≠ [] := by
  cases v with
  | jint n => rw [dmpV_jint]; exact intChars_ne_nil n
  | jfloat d => rw [dmpV_jfloat]; exact floatChars_ne_nil d
  | jstr s => rw [dmpV_jstr]; simp [strChars]
  | jarr l =>
    cases l with
    | nil => rw [dmpV_jarr_nil]; simp
    | cons v vs => rw [dmpV_jarr_cons]; simp
  | jobj l =>
    cases l with
    | nil => rw [dmpV_jobj_nil]; simp
    | cons p ps => rw [dmpV_jobj_cons]; simp

theorem dmpA_ne_nil (l : List JVal) : dmpA l ≠ [] := by
  cases l with
  | nil => rw [dmpA_nil]; simp
  | cons v vs => rw [dmpA_cons]; simp

theorem dmpO_ne_nil (l : List (String × JVal)) : dmpO l ≠ [] := by
  cases l with
  | nil => rw [dmpO_nil]; simp
  | cons p ps => rw [dmpO_cons]; simp

theorem dmpP_ne_nil (p : String × JVal) : dmpP p ≠ [] := by
  obtain ⟨k, v⟩ := p
  rw [dmpP_eq]
  simp [strChars]

theorem dmpV_head (v : JVal) (c : Char) (t : List Char) (h : dmpV v = c :: t) :
    c = dq ∨ c = '[' ∨ c = lbrace ∨ c = '-' ∨ c.isDigit = true := by
  cases v with
  | jint n =>
    rw [dmpV_jint] at h
    unfold intChars at h
    split_ifs at h with hn
    · injection h with h1 _
      exact Or.inr (Or.inr (Or.inr (Or.inl h1.symm)))
    · have hc : c ∈ natChars n.natAbs := by rw [h]; exact List.mem_cons_self c t
      exact Or.inr (Or.inr (Or.inr (Or.inr (natChars_digits _ c hc))))
  | jfloat d =>
    rw [dmpV_jfloat] at h
    unfold floatChars at h
    dsimp only at h
    by_cases hm : d.mant < 0
    · rw [if_pos hm] at h
      simp only [List.singleton_append, List.cons_append, List.append_assoc] at h
      injection h with h1 _
      exact Or.inr (Or.inr (Or.inr (Or.inl h1.symm)))
    · rw [if_neg hm] at h
      simp only [List.nil_append] at h
      obtain ⟨c0, t0, hA⟩ :=
        List.exists_cons_of_ne_nil (natChars_ne_nil (d.mant.natAbs / 10 ^ d.exp))
      rw [hA, List.cons_append] at h
      injection h with h1 _
      have hc : c0 ∈ natChars (d.mant.natAbs / 10 ^ d.exp) := by
        rw [hA]; exact List.mem_cons_self c0 t0
      exact Or.inr (Or.inr (Or.inr (Or.inr (h1 ▸ natChars_digits _ c0 hc))))
  | jstr s =>
    rw [dmpV_jstr] at h
    injection h with h1 _
    exact Or.inl h1.symm
  | jarr l =>
    cases l with
    | nil =>
      rw [dmpV_jarr_nil] at h
      injection h with h1 _
      exact Or.inr (Or.inl h1.symm)
    | cons v vs =>
      rw [dmpV_jarr_cons] at h
      injection h with h1 _
      exact Or.inr (Or.inl h1.symm)
  | jobj l =>
    cases l with
    | nil =>
      rw [dmpV_jobj_nil] at h
      injection h with h1 _
      exact Or.inr (Or.inr (Or.inl h1.symm))
    | cons p ps =>
      rw [dmpV_jobj_cons] at h
      injection h with h1 _
      exact Or.inr (Or.inr (Or.inl h1.symm))

theorem stopTok_dmpA (l : List JVal) (r : List Char) : stopTok (dmpA l ++ r) := by
  cases l with
  | nil =>
    rw [dmpA_nil]
    exact stopTok_cons _ _ (by decide) (by decide)
  | cons v vs =>
    rw [dmpA_cons, List.cons_append]
    exact stopTok_cons _ _ (by decide) (by decide)

theorem stopTok_dmpO (l : List (String × JVal)) (r : List Char) :
    stopTok (dmpO l ++ r) := by
  cases l with
  | nil =>
    rw [dmpO_nil]
    exact stopTok_cons _ _ (by decide) (by decide)
  | cons p ps =>
    rw [dmpO_cons, List.cons_append]
    exact stopTok_cons _ _ (by decide) (by decide)

/- The single quote never occurs in the serialization of a good value -/

theorem intChars_chars (n : Int) : ∀ c ∈ intChars n, c = '-' ∨ c.isDigit = true := by
  unfold intChars
  split_ifs with hn
  · intro c hc
    rcases List.mem_cons.mp hc with rfl | hc
    · exact Or.inl rfl
    · exact Or.inr (natChars_digits _ c hc)
  · intro c hc
    exact Or.inr (natChars_digits _ c hc)

theorem floatChars_chars (d : Dec) :
    ∀ c ∈ floatChars d, c = '-' ∨ c = '.' ∨ c.isDigit = true := by
  unfold floatChars
  dsimp only
  intro c hc
  rcases List.mem_append.mp hc with hc | hc
  · rcases List.mem_append.mp hc with hc | hc
    · split_ifs at hc
      · rcases List.mem_singleton.mp hc with rfl
        exact Or.inl rfl
      · cases hc
    · exact Or.inr (Or.inr (natChars_digits _ c hc))
  · rcases List.mem_cons.mp hc with rfl | hc
    · exact Or.inr (Or.inl rfl)
    · split_ifs at hc with he
      · rcases List.mem_singleton.mp hc with rfl
        exact Or.inr (Or.inr (by decide))
      · exact Or.inr (Or.inr (padZeros_digits _ _ (natChars_digits _) c hc))

theorem escBody_no_squote (l : List Char) (hg : ∀ c ∈ l, goodChar c = true) :
    squote ∉ escBody l := by
  induction l with
  | nil =>
    show squote ∉ [dq]
    decide
  | cons c t ih =>
    show squote ∉ escChar c ++ escBody t
    intro hmem
    rcases List.mem_append.mp hmem with h | h
    · rcases escChar_good c (hg c (List.mem_cons_self c t)) with
        ⟨rfl, he⟩ | ⟨rfl, he⟩ | ⟨h1, h2, he⟩
      · rw [he] at h
        rcases List.mem_cons.mp h with h | h
        · exact absurd h (by decide)
        · rcases List.mem_singleton.mp h with h
          exact absurd h (by decide)
      · rw [he] at h
        rcases List.mem_cons.mp h with h | h
        · exact absurd h (by decide)
        · rcases List.mem_singleton.mp h with h
          exact absurd h (by decide)
      · rw [he] at h
        rcases List.mem_singleton.mp h with rfl
        have := hg squote (List.mem_cons_self squote t)
        unfold goodChar at this
        simp only [Bool.and_eq_true, decide_eq_true_eq] at this
        exact this.2 rfl
    · exact ih (fun x hx => hg x (List.mem_cons_of_mem c hx)) h

theorem strChars_no_squote (s : String) (hg : goodStr s = true) :
    squote ∉ strChars s := by
  intro h
  rcases List.mem_cons.mp h with h | h
  · exact absurd h (by decide)
  · have hgl : ∀ c ∈ s.data, goodChar c = true := by
      unfold goodStr at hg
      exact fun c hc => List.all_eq_true.mp hg c hc
    exact escBody_no_squote s.data hgl h

theorem dump_no_squote :
    ∀ f, (∀ v, GoodV v → squote ∉ dumpV f v) ∧
      (∀ l : List JVal, (∀ x ∈ l, GoodV x) → squote ∉ dumpAT f l) ∧
      (∀ p : String × JVal, goodStr p.1 = true → GoodV p.2 → squote ∉ dumpPair f p) ∧
      (∀ l : List (String × JVal), (∀ p ∈ l, goodStr p.1 = true) →
        (∀ p ∈ l, GoodV p.2) → squote ∉ dumpOT f l) := by
  intro f
  induction f with
  | zero =>
    refine ⟨fun v _ => ?_, fun l _ => ?_, fun p _ _ => ?_, fun l _ _ => ?_⟩ <;> simp [dumpV, dumpAT, dumpPair, dumpOT]
  | succ f ih =>
    obtain ⟨ihV, ihA, ihP, ihO⟩ := ih
    refine ⟨fun v hv => ?_, fun l hl => ?_, fun p hk hv => ?_, fun l hk hv => ?_⟩
    · cases v with
      | jint n =>
        show squote ∉ intChars n
        intro h
        rcases intChars_chars n squote h with h | h
        · exact absurd h (by decide)
        · exact absurd h (by decide)
      | jfloat d =>
        show squote ∉ floatChars d
        intro h
        rcases floatChars_chars d squote h with h | h | h
        · exact absurd h (by decide)
        · exact absurd h (by decide)
        · exact absurd h (by decide)
      | jstr s =>
        show squote ∉ strChars s
        cases hv with
        | gstr s hs => exact strChars_no_squote s hs
      | jarr l =>
        cases hv with
        | garr l hl =>
          cases l with
          | nil =>
            show squote ∉ ['[', ']']
            decide
          | cons x xs =>
            show squote ∉ '[' :: dumpV f x ++ dumpAT f xs
            intro h
            rcases List.mem_cons.mp h with h | h
            · exact absurd h (by decide)
            · rcases List.mem_append.mp h with h | h
              · exact ihV x (hl x (List.mem_cons_self x xs)) h
              · exact ihA xs (fun y hy => hl y (List.mem_cons_of_mem x hy)) h
      | jobj l =>
        cases hv with
        | gobj l hk2 hv2 =>
          cases l with
          | nil =>
            show squote ∉ [lbrace, rbrace]
            decide
          | cons p ps =>
            show squote ∉ lbrace :: dumpPair f p ++ dumpOT f ps
            intro h
            rcases List.mem_cons.mp h with h | h
            · exact absurd h (by decide)
            · rcases List.mem_append.mp h with h | h
              · exact ihP p (hk2 p (List.mem_cons_self p ps))
                  (hv2 p (List.mem_cons_self p ps)) h
              · exact ihO ps (fun q hq => hk2 q (List.mem_cons_of_mem p hq))
                  (fun q hq => hv2 q (List.mem_cons_of_mem p hq)) h
    · cases l with
      | nil =>
        show squote ∉ [']']
        decide
      | cons x xs =>
        show squote ∉ ',' :: dumpV f x ++ dumpAT f xs
        intro h
        rcases List.mem_cons.mp h with h | h
        · exact absurd h (by decide)
        · rcases List.mem_append.mp h with h | h
          · exact ihV x (hl x (List.mem_cons_self x xs)) h
          · exact ihA xs (fun y hy => hl y (List.mem_cons_of_mem x hy)) h
    · obtain ⟨k, v⟩ := p
      show squote ∉ strChars k ++ ':' :: dumpV f v
      intro h
      rcases List.mem_append.mp h with h | h
      · exact strChars_no_squote k hk h
      · rcases List.mem_cons.mp h with h | h
        · exact absurd h (by decide)
        · exact ihV v hv h
    · cases l with
      | nil =>
        show squote ∉ [rbrace]
        decide
      | cons p ps =>
        show squote ∉ ',' :: dumpPair f p ++ dumpOT f ps
        intro h
        rcases List.mem_cons.mp h with h | h
        · exact absurd h (by decide)
        · rcases List.mem_append.mp h with h | h
          · exact ihP p (hk p (List.mem_cons_self p ps))
              (hv p (List.mem_cons_self p ps)) h
          · exact ihO ps (fun q hq => hk q (List.mem_cons_of_mem p hq))
              (fun q hq => hv q (List.mem_cons_of_mem p hq)) h

theorem dmpV_no_squote (v : JVal) (h : GoodV v) : squote ∉ dmpV v :=
  (dump_no_squote (sizeOf v)).1 v h

/- Quote-replacement lemmas -/

theorem pyReplace_no_old (o n : Char) (h : o ≠ n) (l : List Char) :
    o ∉ pyReplace o n l := by
  intro hmem
  unfold pyReplace at hmem
  rcases List.mem_map.mp hmem with ⟨c, _, hc⟩
  by_cases hco : c = o
  · rw [if_pos hco] at hc
    exact h hc.symm
  · rw [if_neg hco] at hc
    exact hco hc

theorem pyReplace_roundtrip (l : List Char) (h : squote ∉ l) :
    pyReplace squote dq (pyReplace dq squote l) = l := by
  unfold pyReplace
  rw [List.map_map]
  have hpt : ∀ c ∈ l,
      ((fun x => if x = squote then dq else x) ∘ fun x => if x = dq then squote else x) c =
        id c := by
    intro c hc
    by_cases hcd : c = dq
    · subst hcd
      simp
    · have hcs : c ≠ squote := fun he => h (he ▸ hc)
      simp [hcd, hcs]
  rw [List.map_congr_left hpt, List.map_id]

/- Syntactic unfolding equations for the parser -/

theorem parseV_succ (f : Nat) (c : Char) (cs : List Char) :
    parseV (f + 1) (c :: cs) =
      if c = dq then
        match parseStr cs with
        | some (s, r) => some (JVal.jstr (String.mk s), r)
        | none => none
      else if c = '[' then
        match cs with
        | [] => none
        | d :: cs2 =>
          if d = ']' then some (JVal.jarr [], cs2)
          else
            match parseV f cs with
            | some (v, r1) =>
              match parseAT f r1 with
              | some (vs, r2) => some (JVal.jarr (v :: vs), r2)
              | none => none
            | none => none
      else if c = lbrace then
        match cs with
        | [] => none
        | d :: cs2 =>
          if d = rbrace then some (JVal.jobj [], cs2)
          else
            match parsePair f cs with
            | some (p, r1) =>
              match parseOT f r1 with
              | some (ps, r2) => some (JVal.jobj (p :: ps), r2)
              | none => none
            | none => none
      else parseNum (c :: cs) := rfl

theorem parseAT_succ (f : Nat) (c : Char) (cs : List Char) :
    parseAT (f + 1) (c :: cs) =
      if c = ']' then some ([], cs)
      else if c = ',' then
        match parseV f cs with
        | some (v, r1) =>
          match parseAT f r1 with
          | some (vs, r2) => some (v :: vs, r2)
          | none => none
        | none => none
      else none := rfl

theorem parsePair_succ (f : Nat) (c : Char) (cs : List Char) :
    parsePair (f + 1) (c :: cs) =
      if c = dq then
        match parseStr cs with
        | some (k, r1) =>
          match r1 with
          | [] => none
          | d :: r2 =>
            if d = ':' then
              match parseV f r2 with
              | some (v, r3) => some ((String.mk k, v), r3)
              | none => none
            else none
        | none => none
      else none := rfl

theorem parseOT_succ (f : Nat) (c : Char) (cs : List Char) :
    parseOT (f + 1) (c :: cs) =
      if c = rbrace then some ([], cs)
      else if c = ',' then
        match parsePair f cs with
        | some (p, r1) =>
          match parseOT f r1 with
          | some (ps, r2) => some (p :: ps, r2)
          | none => none
        | none => none
      else none := rfl

/- The parser inverts the serializer -/

theorem parse_dump :
    ∀ f,
      (∀ v r, GoodV v → stopTok r → (dmpV v).length ≤ f →
        parseV f (dmpV v ++ r) = some (v, r)) ∧
      (∀ (l : List JVal) r, (∀ x ∈ l, GoodV x) → stopTok r → (dmpA l).length ≤ f →
        parseAT f (dmpA l ++ r) = some (l, r)) ∧
      (∀ (p : String × JVal) r, goodStr p.1 = true → GoodV p.2 → stopTok r →
        (dmpP p).length ≤ f → parsePair f (dmpP p ++ r) = some (p, r)) ∧
      (∀ (l : List (String × JVal)) r, (∀ p ∈ l, goodStr p.1 = true) →
        (∀ p ∈ l, GoodV p.2) → stopTok r → (dmpO l).length ≤ f →
        parseOT f (dmpO l ++ r) = some (l, r)) := by
  intro f
  induction f with
  | zero =>
    refine ⟨fun v r _ _ hlen => ?_, fun l r _ _ hlen => ?_,
      fun p r _ _ _ hlen => ?_, fun l r _ _ _ hlen => ?_⟩
    · exact absurd (List.length_eq_zero.mp (by omega)) (dmpV_ne_nil v)
    · exact absurd (List.length_eq_zero.mp (by omega)) (dmpA_ne_nil l)
    · exact absurd (List.length_eq_zero.mp (by omega)) (dmpP_ne_nil p)
    · exact absurd (List.length_eq_zero.mp (by omega)) (dmpO_ne_nil l)
  | succ f ih =>
    obtain ⟨ihV, ihA, ihP, ihO⟩ := ih
    refine ⟨fun v r hv hr hlen => ?_, fun l r hl hr hlen => ?_,
      fun p r hk hv hr hlen => ?_, fun l r hk hv hr hlen => ?_⟩
    · cases v with
      | jint n =>
        rw [dmpV_jint]
        obtain ⟨c0, t0, hd⟩ := List.exists_cons_of_ne_nil (intChars_ne_nil n)
        have hc0 : c0 = '-' ∨ c0.isDigit = true :=
          intChars_chars n c0 (by rw [hd]; exact List.mem_cons_self c0 t0)
        have h1 : c0 ≠ dq := by
          rcases hc0 with rfl | h
          · decide
          · exact (digit_ne c0 h).2.2.1
        have h2 : c0 ≠ '[' := by
          rcases hc0 with rfl | h
          · decide
          · exact (digit_ne c0 h).2.2.2.1
        have h3 : c0 ≠ lbrace := by
          rcases hc0 with rfl | h
          · decide
          · exact (digit_ne c0 h).2.2.2.2.2.1
        rw [hd, List.cons_append]
        rw [parseV_succ]
        rw [if_neg h1, if_neg h2, if_neg h3, ← List.cons_append, ← hd,
          parseNum_intChars n r hr]
      | jfloat d =>
        cases hv with
        | gfloat d hok =>
          rw [dmpV_jfloat]
          obtain ⟨c0, t0, hd⟩ := List.exists_cons_of_ne_nil (floatChars_ne_nil d)
          have hc0 : c0 = '-' ∨ c0 = '.' ∨ c0.isDigit = true :=
            floatChars_chars d c0 (by rw [hd]; exact List.mem_cons_self c0 t0)
          have h1 : c0 ≠ dq := by
            rcases hc0 with rfl | rfl | h
            · decide
            · decide
            · exact (digit_ne c0 h).2.2.1
          have h2 : c0 ≠ '[' := by
            rcases hc0 with rfl | rfl | h
            · decide
            · decide
            · exact (digit_ne c0 h).2.2.2.1
          have h3 : c0 ≠ lbrace := by
            rcases hc0 with rfl | rfl | h
            · decide
            · decide
            · exact (digit_ne c0 h).2.2.2.2.2.1
          rw [hd, List.cons_append]
          rw [parseV_succ]
          rw [if_neg h1, if_neg h2, if_neg h3, ← List.cons_append, ← hd,
            parseNum_floatChars d hok r hr]
      | jstr s =>
        cases hv with
        | gstr s hs =>
          obtain ⟨sl⟩ := s
          rw [dmpV_jstr]
          show parseV (f + 1) (dq :: (escBody sl ++ r)) = _
          rw [parseV_succ]
          rw [if_pos rfl, parseStr_escBody sl r
            (fun c hc => List.all_eq_true.mp hs c hc)]
      | jarr l =>
        cases hv with
        | garr l hgl =>
          cases l with
          | nil =>
            rw [dmpV_jarr_nil]
            show parseV (f + 1) ('[' :: ']' :: r) = _
            rw [parseV_succ]
            rw [if_neg (by decide), if_pos rfl]
            dsimp only
            rw [if_pos rfl]
          | cons v vs =>
            rw [dmpV_jarr_cons] at hlen ⊢
            have hlv := List.length_pos.mpr (dmpV_ne_nil v)
            have hla := List.length_pos.mpr (dmpA_ne_nil vs)
            simp only [List.length_cons, List.length_append] at hlen
            rw [show ('[' :: dmpV v ++ dmpA vs) ++ r =
              '[' :: (dmpV v ++ (dmpA vs ++ r)) by simp]
            obtain ⟨c0, t0, hd⟩ := List.exists_cons_of_ne_nil (dmpV_ne_nil v)
            have hne : c0 ≠ ']' := by
              rcases dmpV_head v c0 t0 hd with rfl | rfl | rfl | rfl | h
              · decide
              · decide
              · decide
              · decide
              · exact (digit_ne c0 h).2.2.2.2.1
            rw [hd, List.cons_append]
            rw [parseV_succ]
            rw [if_neg (by decide), if_pos rfl]
            dsimp only
            rw [if_neg hne, ← List.cons_append, ← hd,
              ihV v (dmpA vs ++ r) (hgl v (List.mem_cons_self v vs))
                (stopTok_dmpA vs r) (by omega)]
            dsimp only
            rw [ihA vs r (fun x hx => hgl x (List.mem_cons_of_mem v hx)) hr (by omega)]
      | jobj l =>
        cases hv with
        | gobj l hgk hgv =>
          cases l with
          | nil =>
            rw [dmpV_jobj_nil]
            show parseV (f + 1) (lbrace :: rbrace :: r) = _
            rw [parseV_succ]
            rw [if_neg (by decide), if_neg (by decide), if_pos rfl]
            dsimp only
            rw [if_pos rfl]
          | cons p ps =>
            rw [dmpV_jobj_cons] at hlen ⊢
            have hlp := List.length_pos.mpr (dmpP_ne_nil p)
            have hlo := List.length_pos.mpr (dmpO_ne_nil ps)
            simp only [List.length_cons, List.length_append] at hlen
            rw [show (lbrace :: dmpP p ++ dmpO ps) ++ r =
              lbrace :: (dmpP p ++ (dmpO ps ++ r)) by simp]
            obtain ⟨c0, t0, hd⟩ := List.exists_cons_of_ne_nil (dmpP_ne_nil p)
            have hc0 : c0 = dq := by
              obtain ⟨k0, v0⟩ := p
              rw [dmpP_eq] at hd
              have : strChars k0 ++ ':' :: dmpV v0 =
                  dq :: (escBody k0.data ++ (':' :: dmpV v0)) := by
                simp [strChars]
              rw [this] at hd
              injection hd with h1 _
              exact h1.symm
            have hne : c0 ≠ rbrace := by rw [hc0]; decide
            rw [hd, List.cons_append]
            rw [parseV_succ]
            rw [if_neg (by decide), if_neg (by decide), if_pos rfl]
            dsimp only
            rw [if_neg hne, ← List.cons_append, ← hd,
              ihP p (dmpO ps ++ r) (hgk p (List.mem_cons_self p ps))
                (hgv p (List.mem_cons_self p ps)) (stopTok_dmpO ps r) (by omega)]
            dsimp only
            rw [ihO ps r (fun q hq => hgk q (List.mem_cons_of_mem p hq))
              (fun q hq => hgv q (List.mem_cons_of_mem p hq)) hr (by omega)]
    · cases l with
      | nil =>
        rw [dmpA_nil]
        show parseAT (f + 1) (']' :: r) = _
        rw [parseAT_succ]
        rw [if_pos rfl]
      | cons v vs =>
        rw [dmpA_cons] at hlen ⊢
        have hlv := List.length_pos.mpr (dmpV_ne_nil v)
        have hla := List.length_pos.mpr (dmpA_ne_nil vs)
        simp only [List.length_cons, List.length_append] at hlen
        rw [show (',' :: dmpV v ++ dmpA vs) ++ r =
          ',' :: (dmpV v ++ (dmpA vs ++ r)) by simp]
        rw [parseAT_succ]
        rw [if_neg (by decide), if_pos rfl,
          ihV v (dmpA vs ++ r) (hl v (List.mem_cons_self v vs))
            (stopTok_dmpA vs r) (by omega)]
        dsimp only
        rw [ihA vs r (fun x hx => hl x (List.mem_cons_of_mem v hx)) hr (by omega)]
    · obtain ⟨k0, v0⟩ := p
      rw [dmpP_eq] at hlen ⊢
      have hlv := List.length_pos.mpr (dmpV_ne_nil v0)
      simp only [List.length_append, List.length_cons] at hlen
      obtain ⟨kl⟩ := k0
      rw [show (strChars ⟨kl⟩ ++ ':' :: dmpV v0) ++ r =
        dq :: (escBody kl ++ (':' :: (dmpV v0 ++ r))) by simp [strChars]]
      rw [parsePair_succ]
      rw [if_pos rfl, parseStr_escBody kl (':' :: (dmpV v0 ++ r))
        (fun c hc => List.all_eq_true.mp hk c hc)]
      dsimp only
      rw [if_pos rfl, ihV v0 r hv hr (by omega)]
    · cases l with
      | nil =>
        rw [dmpO_nil]
        show parseOT (f + 1) (rbrace :: r) = _
        rw [parseOT_succ]
        rw [if_pos rfl]
      | cons p ps =>
        rw [dmpO_cons] at hlen ⊢
        have hlp := List.length_pos.mpr (dmpP_ne_nil p)
        have hlo := List.length_pos.mpr (dmpO_ne_nil ps)
        simp only [List.length_cons, List.length_append] at hlen
        rw [show (',' :: dmpP p ++ dmpO ps) ++ r =
          ',' :: (dmpP p ++ (dmpO ps ++ r)) by simp]
        rw [parseOT_succ]
        rw [if_neg (by decide), if_pos rfl,
          ihP p (dmpO ps ++ r) (hk p (List.mem_cons_self p ps))
            (hv p (List.mem_cons_self p ps)) (stopTok_dmpO ps r) (by omega)]
        dsimp only
        rw [ihO ps r (fun q hq => hk q (List.mem_cons_of_mem p hq))
          (fun q hq => hv q (List.mem_cons_of_mem p hq)) hr (by omega)]

/- ===================== Claims ===================== -/

/-- C1 (counterexample): the boundary parser accepts a record whose RA
field is `-1:0:0` and emits the negative right ascension `-3600`, so the
accepted-record invariant "the right-ascension component is a
non-negative integer" is false as stated. -/
theorem ra_nonneg_counterexample :
    build_boundary_data ["657 -1:0:0 5:30:0 CEP CEP"] =
      some [("CEP", [(-3600, 330)])] ∧ (-3600 : Int) < 0 := by decide

/-- C1 (amended): both vertex components are integer-valued — the RA an
integer, the declination a float carrying exactly the integer number of
arc-minutes — and the RA is non-negative whenever the parsed
hour/minute/second fields are non-negative (which the parser itself
does not enforce). -/
theorem boundary_vertex_components :
    (∀ h m s : Int, 0 ≤ h → 0 ≤ m → 0 ≤ s → 0 ≤ raFromInts h m s) ∧
    (∀ v : Int × Int,
      vertexJ v = JVal.jarr [JVal.jint v.1, JVal.jfloat ⟨v.2, 0⟩] ∧
      dval ⟨v.2, 0⟩ = (v.2 : ℚ)) := by
  refine ⟨fun h m s hh hm hs => ?_, fun v => ⟨rfl, ?_⟩⟩
  · unfold raFromInts
    have : 0 ≤ 60 * h + m := by omega
    nlinarith
  · unfold dval; norm_num

/-- C1 (witness): the amended non-negativity at `h, m, s = 1, 2, 3`. -/
theorem boundary_vertex_components_witness :
    (0 : Int) ≤ 1 ∧ (0 : Int) ≤ 2 ∧ (0 : Int) ≤ 3 ∧ 0 ≤ raFromInts 1 2 3 :=
  ⟨by decide, by decide, by decide,
    boundary_vertex_components.1 1 2 3 (by decide) (by decide) (by decide)⟩

/-- C2 (counterexample): with degrees field `-0` and positive minutes
the code produces `+30`, not a negative value: `int("-0")` is the plain
integer `0`, whose float conversion is positive zero, so `copysign`
keeps the minutes positive. -/
theorem negzero_counterexample :
    parseDecText "-0:30:0" = some 30 ∧ ¬ (30 : Int) < 0 := by decide

/-- C2 (amended): when the degrees field is the textual `-0` the parsed
degree value is the unsigned integer `0`, and the sign-copy then leaves
positive minutes positive, so the resulting arc-minutes value is
positive, not negative. -/
theorem negzero_gives_positive :
    parsePyInt "-0" = some 0 ∧
    (∀ m : Int, 0 < m → decConvert 0 m 0 = some m) ∧
    parseDecText "-0:30:0" = some 30 := by
  refine ⟨by decide, fun m hm => ?_, by decide⟩
  unfold decConvert decFromInts copysign
  rw [if_pos rfl, if_neg (by omega : ¬ (0 : Int) < 0)]
  congr 1
  omega

/-- C2 (witness): the amended statement at `m = 30`. -/
theorem negzero_gives_positive_witness :
    (0 : Int) < 30 ∧ decConvert 0 30 0 = some 30 :=
  ⟨by decide, negzero_gives_positive.2.1 30 (by decide)⟩

/-- C4: color classification is a total partition of the color-index
values with the stated boundaries: below 0.00 blue, from 0.00 up to but
excluding 0.59 white, from 0.59 up red; 0.00 itself is white and 0.59
itself is red. -/
theorem color_partition :
    (∀ bv : Dec,
      (color bv = "blue" ↔ dval bv < 0) ∧
      (color bv = "white" ↔ 0 ≤ dval bv ∧ dval bv < 59 / 100) ∧
      (color bv = "red" ↔ 59 / 100 ≤ dval bv)) ∧
    color ⟨0, 0⟩ = "white" ∧ color ⟨59, 2⟩ = "red" := by
  have h0 : dval ⟨0, 0⟩ = 0 := by unfold dval; norm_num
  have h59 : dval ⟨59, 2⟩ = 59 / 100 := by unfold dval; norm_num
  refine ⟨?_, by decide, by decide⟩
  intro bv
  unfold color
  by_cases hb : dltB bv ⟨0, 0⟩ = true
  · have hv : dval bv < 0 := by rw [← h0]; exact (dltB_iff _ _).mp hb
    rw [if_pos hb]
    exact ⟨⟨fun _ => hv, fun _ => rfl⟩,
      ⟨fun h => absurd h (by decide), fun h => absurd hv (not_lt.mpr h.1)⟩,
      ⟨fun h => absurd h (by decide),
        fun h => absurd hv (not_lt.mpr (le_trans (by norm_num) h))⟩⟩
  · have hv : ¬ dval bv < 0 := fun hl => hb ((dltB_iff _ _).mpr (h0 ▸ hl))
    rw [if_neg hb]
    by_cases hw : dltB bv ⟨59, 2⟩ = true
    · have hv2 : dval bv < 59 / 100 := by rw [← h59]; exact (dltB_iff _ _).mp hw
      rw [if_pos hw]
      exact ⟨⟨fun h => absurd h (by decide), fun h => absurd h hv⟩,
        ⟨fun _ => ⟨not_lt.mp hv, hv2⟩, fun _ => rfl⟩,
        ⟨fun h => absurd h (by decide), fun h => absurd hv2 (not_lt.mpr h)⟩⟩
    · have hv2 : ¬ dval bv < 59 / 100 := fun hl => hw ((dltB_iff _ _).mpr (h59 ▸ hl))
      rw [if_neg hw]
      exact ⟨⟨fun h => absurd h (by decide),
          fun h => absurd (h.trans (by norm_num : (0 : ℚ) < 59 / 100)) hv2⟩,
        ⟨fun h => absurd h (by decide), fun h => absurd h.2 hv2⟩,
        ⟨fun _ => not_lt.mp hv2, fun _ => rfl⟩⟩

/-- C5: the declination conversion applies the sign-copy rule — for
seconds equal to zero the result is `60 * D` plus the minutes with the
sign of the degrees — and in particular `5:30:0 → 330` and
`-5:30:0 → -330`. -/
theorem dec_sign_copy :
    (∀ d m : Int, 0 ≤ m →
      decConvert d m 0 = some (if d < 0 then 60 * d - m else 60 * d + m)) ∧
    parseDecText "5:30:0" = some 330 ∧ parseDecText "-5:30:0" = some (-330) := by
  refine ⟨fun d m hm => ?_, by decide, by decide⟩
  unfold decConvert decFromInts copysign
  rw [if_pos rfl]
  congr 1
  split_ifs with hd <;> omega

/-- C5 (witness): the sign-copy rule at `d = -5, m = 30`. -/
theorem dec_sign_copy_witness :
    (0 : Int) ≤ 30 ∧
    decConvert (-5) 30 0 =
      some (if (-5 : Int) < 0 then 60 * (-5) - 30 else 60 * (-5) + 30) :=
  ⟨by decide, dec_sign_copy.1 (-5) 30 (by decide)⟩

/-- C6: right-ascension conversion follows `(60*H + M)*60 + S`; in
particular `"01:02:03" → 3723` and `"00:00:00" → 0`. -/
theorem ra_conversion :
    (∀ h m s : Int, raFromInts h m s = (60 * h + m) * 60 + s) ∧
    parseRAText "01:02:03" = some 3723 ∧ parseRAText "00:00:00" = some 0 :=
  ⟨fun _ _ _ => rfl, by decide, by decide⟩

/-- C7: the declination conversion fails exactly when the seconds field
is nonzero (`"10:20:05"` in particular), and any line whose parse fails
makes the whole boundary run produce no output. -/
theorem dec_seconds_assert :
    (∀ d m s : Int, decConvert d m s = none ↔ s ≠ 0) ∧
    parseDecText "10:20:05" = none ∧
    (∀ lines line, line ∈ lines → parseBoundaryLine line = none →
      build_boundary_data lines = none) := by
  refine ⟨fun d m s => ?_, by decide, fun lines line hmem hfail => ?_⟩
  · unfold decConvert
    split_ifs with h <;> simp [h]
  · unfold build_boundary_data
    rw [mapOption_eq_none parseBoundaryLine lines line hmem hfail]

/-- C7 (witness): a one-line run containing the `10:20:05` declination
produces no boundary output. -/
theorem dec_seconds_assert_witness :
    decConvert 10 20 5 = none ∧
    build_boundary_data ["528 22:52:0 10:20:05 PEG PEG"] = none :=
  ⟨(dec_seconds_assert.1 10 20 5).mpr (by decide),
    dec_seconds_assert.2.2 _ "528 22:52:0 10:20:05 PEG PEG"
      (List.mem_singleton_self _) (by decide)⟩

/-- C8: a star catalog with the single record `magnitude 3.2, ra 10.0,
dec 20.0, color index -0.1` yields exactly one group, keyed
`(3, "blue")`, whose coordinate list is `[[-10.0, 20.0]]`. -/
theorem star_pipeline_single :
    group_stars_by_magnitude [(⟨10, 0⟩, ⟨20, 0⟩, ⟨32, 1⟩, ⟨-1, 1⟩)] =
      [((3, "blue"), [(⟨-10, 0⟩, ⟨20, 0⟩)])] := by decide

/-- C9: the decision loader maps lines to records pointwise and in input
order — hours are converted to degrees by multiplying by 15.0, the
declination is parsed as a float, the code is uppercased — and in
particular `"1.0 2.0 10.0 cep"` yields `(15.0, 30.0, 10.0, "CEP")`. -/
theorem decision_loader_order :
    (∀ lines out, load_decision_data lines = some out →
      out.length = lines.length ∧
      ∀ i (hi : i < lines.length) (ho : i < out.length),
        parseDecisionLine (lines.get ⟨i, hi⟩) = some (out.get ⟨i, ho⟩)) ∧
    parseDecisionLine "1.0 2.0 10.0 cep" =
      some (⟨15, 0⟩, ⟨30, 0⟩, ⟨10, 0⟩, "CEP") :=
  ⟨fun lines out h => mapOption_length_get parseDecisionLine lines out h, by decide⟩

/-- C9 (witness): a successful two-line run has one output record per
input line. -/
theorem decision_loader_order_witness :
    ([(⟨15, 0⟩, ⟨30, 0⟩, ⟨10, 0⟩, "CEP"),
      (⟨75, 1⟩, ⟨225, 1⟩, ⟨-5, 0⟩, "ORI")] :
        List (Dec × Dec × Dec × String)).length =
      (["1.0 2.0 10.0 cep", "0.5 1.5 -5.0 ori"] : List String).length :=
  (decision_loader_order.1 ["1.0 2.0 10.0 cep", "0.5 1.5 -5.0 ori"]
    [(⟨15, 0⟩, ⟨30, 0⟩, ⟨10, 0⟩, "CEP"), (⟨75, 1⟩, ⟨225, 1⟩, ⟨-5, 0⟩, "ORI")]
    (by decide)).1

/-- C3 (counterexample): the program can build a structure whose string
data contains a single quote (a constellation code taken from the file
text), and that structure does not survive the round trip: reversing
the quote substitution turns the data quote into a double quote and the
standard parser rejects the text. -/
theorem roundtrip_counterexample :
    buildBoundaryJ ["657 1:0:0 5:30:0 A" ++ String.mk [squote] ++ "B A" ++
        String.mk [squote] ++ "B"] =
      some (JVal.jobj [("A" ++ String.mk [squote] ++ "B", polyJ [(3600, 330)])]) ∧
    unjsonify (jsonify
        (JVal.jobj [("A" ++ String.mk [squote] ++ "B", polyJ [(3600, 330)])])) =
      none := by
  constructor
  · rfl
  · rfl

/-- C3 (amended): the serializer is deterministic, and the round trip
holds for every structure whose strings (keys included) are printable
ASCII without single quotes and whose floats are canonical
plain-decimal values — which covers every structure the program builds
from its real catalogs, but not ones whose catalog text smuggles a
single quote into string data. -/
theorem jsonify_roundtrip :
    (∀ v : JVal, jsonify v = jsonify v) ∧
    (∀ v : JVal, GoodV v → unjsonify (jsonify v) = some v) := by
  refine ⟨fun v => rfl, fun v hv => ?_⟩
  unfold unjsonify jsonify
  dsimp only
  rw [pyReplace_roundtrip _ (dmpV_no_squote v hv)]
  have hp := (parse_dump ((dmpV v).length + 1)).1 v [] hv stopTok_nil (by omega)
  rw [List.append_nil] at hp
  rw [hp]

/-- C3 (witness): the round trip at a concrete one-constellation
boundary structure. -/
theorem jsonify_roundtrip_witness :
    unjsonify (jsonify (JVal.jobj [("CEP", polyJ [(3600, 330)])])) =
      some (JVal.jobj [("CEP", polyJ [(3600, 330)])]) := by
  apply jsonify_roundtrip.2
  apply GoodV.gobj
  · intro p hp
    rcases List.mem_singleton.mp hp with rfl
    decide
  · intro p hp
    rcases List.mem_singleton.mp hp with rfl
    show GoodV (polyJ [(3600, 330)])
    unfold polyJ vertexJ
    apply GoodV.gobj
    · intro q hq
      rcases List.mem_cons.mp hq with rfl | hq
      · decide
      · rcases List.mem_singleton.mp hq with rfl
        decide
    · intro q hq
      rcases List.mem_cons.mp hq with rfl | hq
      · exact GoodV.gstr _ (by decide)
      · rcases List.mem_singleton.mp hq with rfl
        apply GoodV.garr
        intro x hx
        rcases List.mem_singleton.mp hx with rfl
        apply GoodV.garr
        intro y hy
        rcases List.mem_singleton.mp hy with rfl
        apply GoodV.garr
        intro z hz
        rcases List.mem_cons.mp hz with rfl | hz
        · exact GoodV.gint _
        · rcases List.mem_singleton.mp hz with rfl
          exact GoodV.gfloat _ (by decide)

/-- C10: the quote substitution applies to the whole serialized text —
no double-quote character survives in any `jsonify` output, so double
quotes inside string data are replaced along with the structural
delimiters; concretely, serializing the string `a"b` yields `'a\'b'`
with the data quote turned into a single quote. -/
theorem quote_substitution_total :
    (∀ v : JVal, dq ∉ (jsonify v).data) ∧
    jsonify (JVal.jstr (String.mk ['a', dq, 'b'])) =
      String.mk [squote, 'a', bslash, squote, 'b', squote] := by
  constructor
  · intro v
    show dq ∉ pyReplace dq squote (dmpV v)
    exact pyReplace_no_old dq squote (by decide) (dmpV v)
  · rfl
